import Mathlib

/-!
# HASCILL Crypto Race — verification of the cipher engine and game server

A shallow embedding, in Lean 4, of the parts of the HASCILL Crypto Race
repository that its specification makes claims about:

* `game_core.py` — parameter derivation from the password, the per-team
  `GameState`, and the step validator `validate_step` (namespace `GameCore`);
* `hascill.py` — the reference cipher `encrypt_verbose` / `decrypt_verbose`
  (namespace `Hascill`);
* `hillplus_async_server.py` — the per-connection rate limiter and the
  scoreboard builder (namespace `Server`).

Python `int` values are embedded as `Int` (machine integers do not overflow in
Python), byte strings as `List Nat`, and Python's `%` on integers as Lean's `%`
on `Int` (the two agree for every positive modulus, which is the only case the
program reaches: every derived modulus is a prime `≥ 257`).
Operations that can raise in Python (indexing out of range, `% 0`) are embedded
as `Option`-valued functions; unbounded `while` loops are embedded with an
explicit fuel argument so that every definition is executable.
-/

namespace GameCore

/-- `egcd` from `game_core.py` / `hascill.py` (extended Euclid), with fuel
standing in for the recursion on `b`; `egcd` below supplies enough fuel for the
recursion to bottom out at `b = 0`, so the fuel-exhausted base is unreachable. -/
def egcdFuel : Nat → Int → Int → Int × Int × Int
  | 0, a, _ => (a, 1, 0)
  | fuel + 1, a, b =>
    if b = 0 then (a, 1, 0)
    else
      let r := egcdFuel fuel b (a % b)
      (r.1, r.2.2, r.2.1 - (a / b) * r.2.2)

/-- `egcd(a, b)` returning `(g, x, y)` with `a*x + b*y = g`. -/
def egcd (a b : Int) : Int × Int × Int := egcdFuel (b.natAbs + 1) a b

/-- `inv_int(a, m)`: modular inverse via `egcd`; `none` embeds the
`ValueError("No hay inversa")` raised when `gcd ≠ 1`. -/
def inv_int (a m : Int) : Option Int :=
  let r := egcd (a % m) m
  if r.1 ≠ 1 then none else some (r.2.1 % m)

/-- The trial-division loop of `is_prime` (`while i*i <= p: ...; i += 2`),
with fuel; `is_prime` passes `p` as fuel, which is always enough since the
index `i` grows by `2` each step and the loop stops once `i * i > p`. -/
def isPrimeLoop (p : Nat) : Nat → Nat → Bool
  | _, 0 => true
  | i, fuel + 1 =>
    if i * i ≤ p then
      if p % i = 0 then false else isPrimeLoop p (i + 2) fuel
    else true

/-- `is_prime(p)` from `game_core.py`: trial division by odd numbers. -/
def is_prime (p : Nat) : Bool :=
  if p < 2 then false
  else if p % 2 = 0 then p = 2
  else isPrimeLoop p 3 p

/-- The `while True` search of `next_prime_condition`, stepping by `2`,
with fuel standing in for the unbounded loop: `none` means the loop has not
returned within `fuel` iterations. -/
def next_prime_search (cond : Nat → Bool) : Nat → Nat → Option Nat
  | _, 0 => none
  | p, fuel + 1 => if is_prime p && cond p then some p else next_prime_search cond (p + 2) fuel

/-- `next_prime_condition(start, cond)` from `game_core.py`. -/
def next_prime_condition (start : Nat) (cond : Nat → Bool) (fuel : Nat) : Option Nat :=
  let p := max 2 start
  let p := if p % 2 = 0 && p ≠ 2 then p + 1 else p
  next_prime_search cond p fuel

/-- The condition closed over in `derive_prime_from_password`:
`(p-1) % 3 != 0 and p >= 257`. -/
def deriveCond (p : Nat) : Bool := (p - 1) % 3 ≠ 0 && 257 ≤ p

/-- `derive_prime_from_password(pw_bytes)`: seed `257 + (Σ bytes mod 1000)`,
then the prime search under `deriveCond`. -/
def derive_prime_from_password (pw : List Nat) (fuel : Nat) : Option Nat :=
  next_prime_condition (257 + pw.sum % 1000) deriveCond fuel

/-- The seed value `257 + (S % 1000)` of `derive_prime_from_password`. -/
def seedOf (pw : List Nat) : Nat := 257 + pw.sum % 1000

/-- `expand_bytes(seed, needed)`: the `while len(out) < needed` loop appends
exactly one byte per iteration, so it equals a map over `0, ..., needed-1`. -/
def expand_bytes (seed : List Nat) (needed : Nat) : List Nat :=
  (List.range needed).map fun i =>
    let b := seed.getD (i % seed.length) 0
    let mix := (i * 31 ^^^ b <<< 3) &&& 0xFF
    b ^^^ mix

/-- `matrix_minor(mat, i, j)`: drop row `i` and, in every remaining row,
column `j` (`row[:j] + row[j+1:]` is `eraseIdx j`). -/
def matrix_minor (mat : List (List Int)) (i j : Nat) : List (List Int) :=
  (mat.eraseIdx i).map fun row => row.eraseIdx j

/-- Indexing helper: `l[j]` with default `0` (all uses are in range). -/
def idx (l : List Int) (j : Nat) : Int := l.getD j 0

/-- Row helper: `mat[i]` with default `[]` (all uses are in range). -/
def rowAt (mat : List (List Int)) (i : Nat) : List Int := mat.getD i []

/-- The cofactor sign `(-1) ** j`. -/
def altSign (j : Nat) : Int := if j % 2 = 1 then -1 else 1

/-- `det_mod(mat, m)` (first-row Laplace expansion, reducing mod `m` at each
step), with fuel standing in for the recursion on the minors; `det_mod` below
passes `mat.length` as fuel, which bounds the recursion depth. -/
def det_modFuel : Nat → List (List Int) → Int → Int
  | fuel, mat, m =>
    let n := mat.length
    if n = 1 then idx (rowAt mat 0) 0 % m
    else if n = 2 then
      (idx (rowAt mat 0) 0 * idx (rowAt mat 1) 1 -
        idx (rowAt mat 0) 1 * idx (rowAt mat 1) 0) % m
    else
      match fuel with
      | 0 => 0 % m
      | fuel + 1 =>
        ((List.range n).foldl
          (fun total j =>
            (total + altSign j * idx (rowAt mat 0) j * det_modFuel fuel (matrix_minor mat 0 j) m) % m)
          0) % m

/-- `det_mod(mat, m)` from `hascill.py` / `game_core.py`. -/
def det_mod (mat : List (List Int)) (m : Int) : Int := det_modFuel mat.length mat m

/-- `adjugate_mod(mat, m)` from `hascill.py`: the transposed cofactor matrix,
entries reduced mod `m`. -/
def adjugate_mod (mat : List (List Int)) (m : Int) : List (List Int) :=
  let n := mat.length
  let cof := fun i j => (altSign (i + j) * det_mod (matrix_minor mat i j) m) % m
  (List.range n).map fun i => (List.range n).map fun j => cof j i % m

/-- `mat_vec_mul(M, v, m)`: row-by-row dot products, reduced after summing. -/
def mat_vec_mul (M : List (List Int)) (v : List Int) (m : Int) : List Int :=
  let n := M.length
  (List.range n).map fun i =>
    ((List.range n).foldl (fun s j => s + idx (rowAt M i) j * idx v j) 0) % m

/-- `mat_inverse_mod(M, m)` from `hascill.py`: `none` embeds the
`ValueError("M no invertible")` / missing-inverse errors. -/
def mat_inverse_mod (M : List (List Int)) (m : Int) : Option (List (List Int)) :=
  let d := det_mod M m
  if d % m = 0 then none
  else
    (inv_int d m).map fun inv_d =>
      let adj := adjugate_mod M m
      let n := M.length
      (List.range n).map fun i => (List.range n).map fun j => inv_d * idx (rowAt adj i) j % m

/-- `sbox(x, m) = pow(x, 3, m)` (for `m ≠ 0`; the validator guards `m = 0`). -/
def sbox (x m : Int) : Int := x ^ 3 % m

/-- `sbox_inv(y, m) = pow(y, e, m)` with `e = inv_int(3, m-1)`; `none` embeds
the `ValueError` when `3` has no inverse mod `m - 1`. -/
def sbox_inv (y m : Int) : Option Int :=
  (inv_int 3 (m - 1)).map fun e => y ^ e.toNat % m

/-- `pkcs7_pad(data, block_size)` (the `if pad == 0` branch is kept although
`block_size - (len % block_size)` is never `0` for positive `block_size`). -/
def pkcs7_pad (data : List Int) (block_size : Nat) : List Int :=
  let pad := block_size - data.length % block_size
  let pad := if pad = 0 then block_size else pad
  data ++ List.replicate pad (pad : Int)

/-- `pkcs7_unpad(data)`: `none` embeds the `ValueError("Padding inválido ...")`
branches (empty input, out-of-range pad byte, wrong pattern). -/
def pkcs7_unpad (data : List Int) : Option (List Int) :=
  match data.getLast? with
  | none => none
  | some pad =>
    if pad ≤ 0 ∨ (data.length : Int) < pad then none
    else if (data.drop (data.length - pad.toNat)).any (· ≠ pad) then none
    else some (data.take (data.length - pad.toNat))

/-- `tweak(i, n, m, key_sum)` (named `compute_tweak` in `hascill.py`):
`t_i[j] = (key_sum + (i+1)*(j+1)) mod m`. -/
def tweak (i n : Nat) (m key_sum : Int) : List Int :=
  (List.range n).map fun (j : Nat) => (key_sum + ((i : Int) + 1) * ((j : Int) + 1)) % m

/-- One attempt of the derivation loop shared by
`game_core.derive_params_from_password` and `hascill.derive_params`: expand
`n*n + n + n` bytes from `pw_bytes + bytes([att])` and consume them in order as
`M` (row-major), `b`, `IV`, each reduced mod `m`. -/
def attemptParams (pw : List Nat) (n : Nat) (m : Int) (att : Nat) :
    List (List Int) × List Int × List Int :=
  let material := expand_bytes (pw ++ [att]) (n * n + n + n)
  let byte := fun k => ((material.getD k 0 : Int)) % m
  (((List.range n).map fun i => (List.range n).map fun j => byte (i * n + j)),
   ((List.range n).map fun j => byte (n * n + j)),
   ((List.range n).map fun j => byte (n * n + n + j)))

/-- The `for att in range(16)` retry loop of the parameter derivation: accept
the first attempt whose `M` has nonzero determinant mod `m`; `none` embeds the
`ValueError` raised when all 16 attempts fail. -/
def derive_paramsFrom (pw : List Nat) (n : Nat) (m : Int) : Nat → Nat → Option (List (List Int) × List Int × List Int)
  | _, 0 => none
  | att, tries + 1 =>
    let p := attemptParams pw n m att
    if det_mod p.1 m % m ≠ 0 then some p else derive_paramsFrom pw n m (att + 1) tries

/-- `derive_params(password_bytes, n, m)` from `hascill.py` (16 attempts). -/
def derive_params (pw : List Nat) (n : Nat) (m : Int) : Option (List (List Int) × List Int × List Int) :=
  derive_paramsFrom pw n m 0 16

/-- The derived parameter bundle `(m, M, b, IV, key_sum)`. -/
structure Params where
  m : Int
  M : List (List Int)
  b : List Int
  IV : List Int
  key_sum : Int
  deriving Repr, DecidableEq

/-- `derive_params_from_password(password, n)` from `game_core.py` (also the
`derive_all_from_password` of `hascill.py`, which derives the same values):
derive the prime, then retry the byte expansion until `M` is invertible. -/
def derive_params_from_password (pw : List Nat) (n : Nat) (fuel : Nat) : Option Params := do
  let mNat ← derive_prime_from_password pw fuel
  let m : Int := (mNat : Int)
  let p ← derive_params pw n m
  pure { m := m, M := p.1, b := p.2.1, IV := p.2.2, key_sum := (pw.sum : Int) % m }

/-- `GameState` from `game_core.py`.  `password`/`message` are embedded as
their ASCII byte lists; block and error counters as `Nat` (they are
nonnegative throughout the program). -/
structure GameState where
  password : List Nat
  message : List Nat
  n : Nat
  m : Int
  M : List (List Int)
  b : List Int
  IV : List Int
  key_sum : Int
  ascii_pw_done : Bool := false
  ascii_msg_done : Bool := false
  current_block : Nat := 0
  current_phase : String := "TPW"
  prev_vec : List Int := []
  u : Option (List Int) := none
  uprime : Option (List Int) := none
  w : Option (List Int) := none
  c_blocks : List (List Int) := []
  errors : Nat := 0
  finished : Bool := false
  v_blocks : List (List Int) := []
  expected_pwd_ascii : List Int := []
  expected_msg_ascii : List Int := []
  deriving Repr, DecidableEq

/-- `initial_state(password, message, n)` from `game_core.py`: requires two
4-byte ASCII strings, derives the parameters, pads and splits the message.
`none` embeds the `ValueError`s (wrong length / non-ASCII / derivation
failure). -/
def initial_state (password message : List Nat) (n : Nat) (fuel : Nat) : Option GameState := do
  if password.length ≠ 4 ∨ message.length ≠ 4 then none
  else if password.any (fun b => 128 ≤ b) || message.any (fun b => 128 ≤ b) then none
  else if n = 0 then none  -- `pkcs7_pad` divides by `n`: `ZeroDivisionError`
  else
    let ps ← derive_params_from_password password n fuel
    let padded := pkcs7_pad (message.map (Int.ofNat)) n
    let v_blocks := (List.range ((padded.length + n - 1) / n)).map fun i => (padded.drop (i * n)).take n
    pure { password := password, message := message, n := n, m := ps.m, M := ps.M,
           b := ps.b, IV := ps.IV, key_sum := ps.key_sum,
           prev_vec := ps.IV, v_blocks := v_blocks,
           expected_pwd_ascii := password.map Int.ofNat,
           expected_msg_ascii := message.map Int.ofNat }

/-- `state.errors += 1`. -/
def incErr (s : GameState) : GameState := { s with errors := s.errors + 1 }

/-- The guarded tweak used inside `validate_step`: computing the tweak raises
`ZeroDivisionError` exactly when `m = 0` and at least one entry is computed. -/
def tweakTry (i n : Nat) (m key_sum : Int) : Option (List Int) :=
  if n ≠ 0 ∧ m = 0 then none else some (tweak i n m key_sum)

/-- The phase-A comparison vector
`[(v_blocks[i][j] + prev_vec[j] + t_i[j]) % m for j in range(n)]`, `none` when
an index is out of range (the `IndexError` caught by `validate_step`). -/
def compATry (s : GameState) (t : List Int) : Option (List Int) :=
  (List.range s.n).mapM fun j => do
    let vb ← s.v_blocks.get? s.current_block
    let a ← vb.get? j
    let p ← s.prev_vec.get? j
    let tj ← t.get? j
    pure ((a + p + tj) % s.m)

/-- The phase-B comparison `[sbox(x, m) for x in u]`; `pow(x, 3, 0)` raises. -/
def sboxListTry (u : List Int) (m : Int) : Option (List Int) :=
  if u ≠ [] ∧ m = 0 then none else some (u.map fun x => sbox x m)

/-- The phase-C comparison `mat_vec_mul(M, u', m)` with the `IndexError` /
`ZeroDivisionError` cases made explicit. -/
def matVecMulTry (M : List (List Int)) (v : List Int) (m : Int) : Option (List Int) :=
  let n := M.length
  if n ≠ 0 ∧ m = 0 then none
  else
    (List.range n).mapM fun i => do
      let row ← M.get? i
      let s ← (List.range n).foldlM
        (fun s j => do
          let a ← row.get? j
          let x ← v.get? j
          pure (s + a * x)) (0 : Int)
      pure (s % m)

/-- The phase-D comparison `[(w[j] + b[j] + t_i[j]) % m for j in range(n)]`. -/
def compDTry (s : GameState) (wv t : List Int) : Option (List Int) :=
  (List.range s.n).mapM fun j => do
    let a ← wv.get? j
    let bj ← s.b.get? j
    let tj ← t.get? j
    pure ((a + bj + tj) % s.m)

/-- One validation outcome: `(ok, message, updated state)`. -/
structure VResult where
  ok : Bool
  msg : Option String
  state : GameState
  deriving Repr, DecidableEq

/-- The `try:` body of `validate_step` from `game_core.py`.  A `none` result
embeds an exception escaping the body (caught by `validate_step` below);
`some r` is a normal return.  Branch order, gate checks, comparisons and state
updates mirror the source line by line (error strings are abbreviated: the
claims do not depend on the interpolated text). -/
def validate_step_try (s : GameState) (phase : String) (vector : List Int) : Option VResult :=
  if phase = "TPW" then
    if vector = s.expected_pwd_ascii then
      some ⟨true, none, { s with ascii_pw_done := true }⟩
    else some ⟨false, some "ASCII password incorrecto.", incErr s⟩
  else if phase = "TMSG" then
    if vector = s.expected_msg_ascii then
      some ⟨true, none, { s with ascii_msg_done := true, current_phase := "A" }⟩
    else some ⟨false, some "ASCII mensaje incorrecto.", incErr s⟩
  else do
    let t ← tweakTry s.current_block s.n s.m s.key_sum
    if phase = "A" then do
      let comp ← compATry s t
      if vector = comp then
        pure ⟨true, none, { s with u := some vector, current_phase := "B" }⟩
      else pure ⟨false, some "Incorrecto. Esperado u.", incErr s⟩
    else if phase = "B" then
      match s.u with
      | none => pure ⟨false, some "Completa fase A primero.", incErr s⟩
      | some u => do
        let comp ← sboxListTry u s.m
        if vector = comp then
          pure ⟨true, none, { s with uprime := some vector, current_phase := "C" }⟩
        else pure ⟨false, some "Incorrecto. Esperado u_prime.", incErr s⟩
    else if phase = "C" then
      match s.uprime with
      | none => pure ⟨false, some "Completa fase B primero.", incErr s⟩
      | some up => do
        let comp ← matVecMulTry s.M up s.m
        if vector = comp then
          pure ⟨true, none, { s with w := some vector, current_phase := "D" }⟩
        else pure ⟨false, some "Incorrecto. Esperado w.", incErr s⟩
    else if phase = "D" then
      match s.w with
      | none => pure ⟨false, some "Completa fase C primero.", incErr s⟩
      | some wv => do
        let comp ← compDTry s wv t
        if vector = comp then
          pure ⟨true, none,
            { s with c_blocks := s.c_blocks ++ [vector],
                     prev_vec := vector,
                     u := none, uprime := none, w := none,
                     current_phase := "A",
                     current_block := s.current_block + 1,
                     finished := s.finished || decide (s.v_blocks.length ≤ s.current_block + 1) }⟩
        else pure ⟨false, some "Incorrecto. Esperado c.", incErr s⟩
    else pure ⟨false, some "Fase desconocida.", s⟩

/-- `validate_step(state, phase, vector)`: the `try/except` wrapper — any
exception from the body becomes a rejection that increments `errors`. -/
def validate_step (s : GameState) (phase : String) (vector : List Int) : VResult :=
  match validate_step_try s phase vector with
  | some r => r
  | none => ⟨false, some "Error.", incErr s⟩

end GameCore

namespace Hascill

open GameCore

/-!
`hascill.py` contains its own textually identical copies of the arithmetic
helpers (`egcd`, `inv_int`, `is_prime`, `det_mod`, `adjugate_mod`,
`mat_vec_mul`, `sbox`, `pkcs7_pad`, `expand_bytes`, ...); the embedding reuses
the definitions above.  `sbox_inv`, `mat_inverse_mod`, `pkcs7_unpad` and
`derive_params` exist only in `hascill.py` but are also defined above.
Strings are embedded as their ASCII byte lists (`ascii_list` /
`list_to_ascii`), so `encrypt_verbose` takes and `decrypt_verbose` returns
byte lists.
-/

/-- The `blocks_of(v, n)` chunking `[v[i:i+n] for i in range(0, len(v), n)]`,
with fuel standing in for the loop (`blocks_of` passes `v.length`, which is
enough for any positive `n`). -/
def blocks_ofFuel : Nat → List Int → Nat → List (List Int)
  | 0, _, _ => []
  | fuel + 1, v, n => if v = [] then [] else v.take n :: blocks_ofFuel fuel (v.drop n) n

/-- `blocks_of(v, n)` from `hascill.py`. -/
def blocks_of (v : List Int) (n : Nat) : List (List Int) := blocks_ofFuel v.length v n

/-- The per-block body of the `encrypt_verbose` loop: phases A (pre-whitening),
B (S-box), C (linear mix), D (post-whitening), for block `i` with chaining
vector `prev`. -/
def encBlock (m key_sum : Int) (M : List (List Int)) (b : List Int) (n i : Nat)
    (prev blk : List Int) : List Int :=
  let t := tweak i n m key_sum
  let u := (List.range n).map fun j => (idx blk j + idx prev j + idx t j) % m
  let up := u.map fun x => sbox x m
  let w := mat_vec_mul M up m
  (List.range n).map fun j => (idx w j + idx b j + idx t j) % m

/-- The `for i, blk in enumerate(v_blocks)` loop of `encrypt_verbose`:
CBC-like chaining, `prev` starts at `IV` and becomes `c_i` after block `i`. -/
def encrypt_chain (m key_sum : Int) (M : List (List Int)) (b : List Int) (n : Nat) :
    Nat → List Int → List (List Int) → List (List Int)
  | _, _, [] => []
  | i, prev, blk :: rest =>
    let c := encBlock m key_sum M b n i prev blk
    c :: encrypt_chain m key_sum M b n (i + 1) c rest

/-- `encrypt_verbose(password, plaintext, n)` from `hascill.py` (the printing
is irrelevant to the result): derive `(m, M, b, IV, key_sum)`, pad, split into
blocks and chain-encrypt.  `none` embeds the derivation errors and the
`ZeroDivisionError` of padding with `n = 0`. -/
def encrypt_verbose (password plaintext : List Nat) (n : Nat) (fuel : Nat) :
    Option (List (List Int)) := do
  if n = 0 then none
  else
    let ps ← derive_params_from_password password n fuel
    let padded := pkcs7_pad (plaintext.map Int.ofNat) n
    let vbs := blocks_of padded n
    pure (encrypt_chain ps.m ps.key_sum ps.M ps.b n 0 ps.IV vbs)

/-- The per-block body of the `decrypt_verbose` loop: D⁻¹, C⁻¹ (multiply by
`M⁻¹`), B⁻¹ (`sbox_inv`), A⁻¹; `none` embeds the `ValueError` of `sbox_inv`
when `3` has no inverse mod `m - 1`. -/
def decBlockTry (m key_sum : Int) (Minv : List (List Int)) (b : List Int) (n i : Nat)
    (prev c : List Int) : Option (List Int) := do
  let t := tweak i n m key_sum
  let w := (List.range n).map fun j => (idx c j - idx b j - idx t j) % m
  let up := mat_vec_mul Minv w m
  let u ← up.mapM fun y => sbox_inv y m
  pure ((List.range n).map fun j => (idx u j - idx prev j - idx t j) % m)

/-- The `for i, c in enumerate(ciphertext_blocks)` loop of `decrypt_verbose`;
the chaining vector becomes `c_i` after block `i`. -/
def decrypt_chain (m key_sum : Int) (Minv : List (List Int)) (b : List Int) (n : Nat) :
    Nat → List Int → List (List Int) → Option (List (List Int))
  | _, _, [] => some []
  | i, prev, c :: rest => do
    let v ← decBlockTry m key_sum Minv b n i prev c
    let vs ← decrypt_chain m key_sum Minv b n (i + 1) c rest
    pure (v :: vs)

/-- `decrypt_verbose(password, ciphertext_blocks, n)` from `hascill.py`,
returning the unpadded plaintext bytes (the final ASCII decode of the byte
list back into a `str` is not modelled).  `none` embeds the derivation,
inversion and padding `ValueError`s. -/
def decrypt_verbose (password : List Nat) (cblocks : List (List Int)) (n : Nat)
    (fuel : Nat) : Option (List Int) := do
  let ps ← derive_params_from_password password n fuel
  let Minv ← mat_inverse_mod ps.M ps.m
  let vs ← decrypt_chain ps.m ps.key_sum Minv ps.b n 0 ps.IV cblocks
  pkcs7_unpad vs.flatten

/-- Semantic bridge: the list-of-lists matrix viewed as a Mathlib matrix over
the integers. -/
def matInt (n : Nat) (L : List (List Int)) : Matrix (Fin n) (Fin n) Int :=
  Matrix.of fun i j => GameCore.idx (GameCore.rowAt L i) j

/-- Semantic bridge: the same matrix reduced into `ZMod m`. -/
def matZ (n m : Nat) (L : List (List Int)) : Matrix (Fin n) (Fin n) (ZMod m) :=
  Matrix.of fun i j => ((GameCore.idx (GameCore.rowAt L i) j : Int) : ZMod m)

/-- Semantic bridge: a list viewed as a vector over `ZMod m`. -/
def vecZ (n m : Nat) (v : List Int) : Fin n → ZMod m :=
  fun j => ((GameCore.idx v j : Int) : ZMod m)

end Hascill

namespace Server

/-- `RATE_LIMIT_WINDOW = 2.0` from `hillplus_async_server.py`; times are
embedded as rationals. -/
def RATE_LIMIT_WINDOW : ℚ := 2

/-- `RATE_LIMIT_MAX = 6`. -/
def RATE_LIMIT_MAX : Nat := 6

/-- One framed message received on a connection: its arrival time and whether
its `type` is `"step_answer"`. -/
structure Event where
  time : ℚ
  isStep : Bool
  deriving Repr, DecidableEq, Inhabited

/-- `cc.last_steps.append(now)` on a `deque(maxlen=32)`: appending to a full
deque discards the oldest entry. -/
def pushMaxlen (q : List ℚ) (t : ℚ) : List ℚ :=
  let q := q ++ [t]
  if 32 < q.length then q.drop (q.length - 32) else q

/-- The purge loop
`while cc.last_steps and (now - cc.last_steps[0] > RATE_LIMIT_WINDOW): popleft()`. -/
def purge (now : ℚ) (q : List ℚ) : List ℚ :=
  q.dropWhile fun x => decide (RATE_LIMIT_WINDOW < now - x)

/-- The rate-limiter block of `HillServer.handle_conn` for one received
message: append `now`, purge, and rate-limit a `step_answer` whose window
count exceeds `RATE_LIMIT_MAX`.  Returns the new window and whether the
message was answered with the rate-limit error (and hence not validated). -/
def limiterStep (q : List ℚ) (e : Event) : List ℚ × Bool :=
  let q1 := pushMaxlen q e.time
  let q2 := purge e.time q1
  (q2, e.isStep && decide (RATE_LIMIT_MAX < q2.length))

/-- The per-connection message loop restricted to its rate-limiter state:
processes the events in order and records, for each, whether it was
rate-limited. -/
def runLimiter (q : List ℚ) : List Event → List Bool
  | [] => []
  | e :: rest =>
    let r := limiterStep q e
    r.2 :: runLimiter r.1 rest

/-- The rate-limiter window after processing a list of events. -/
def runState (q : List ℚ) : List Event → List ℚ
  | [] => q
  | e :: rest => runState (limiterStep q e).1 rest

/-- Whether the `i`-th message of `events` is a `step_answer` that passed the
rate limiter (a prerequisite for being validated). -/
def passedStep (events : List Event) (i : Nat) : Bool :=
  (events.getD i default).isStep && !((runLimiter [] events).getD i true)

/-- The timestamps within the 2-second window ending at `now`, among a list of
timestamps. -/
def winOf (now : ℚ) (ts : List ℚ) : List ℚ :=
  ts.filter fun x => decide (now - x ≤ RATE_LIMIT_WINDOW)

/-- The invariant tying the limiter window `q` to the full history `ts` of
received-message timestamps, `now` being the time of the last processed
message: `q` is a suffix of the in-window history, is the whole of it unless
the deque is at its capacity of 32, and never exceeds 32 entries. -/
def WinInv (ts : List ℚ) (now : ℚ) (q : List ℚ) : Prop :=
  q.IsSuffix (winOf now ts) ∧ (q = winOf now ts ∨ q.length = 32) ∧ q.length ≤ 32

/-- One scoreboard row, with the fields produced by
`HillServer.build_scoreboard`. -/
structure Row where
  team : Int
  finished : Bool
  blocks_done : Nat
  total_blocks : Nat
  phase : String
  errors : Nat
  time_sec : Option ℚ
  deriving Repr, DecidableEq

/-- The slice of `TeamSrvState` that `build_scoreboard` reads. -/
structure TeamSrv where
  team_id : Int
  game : Option GameCore.GameState
  win_time : Option ℚ
  deriving Repr, DecidableEq

/-- `round(x, 3)`: rounding to milliseconds (tie-breaking below the claimed
precision is immaterial). -/
def round3 (q : ℚ) : ℚ := ((⌊q * 1000 + 1 / 2⌋ : ℤ) : ℚ) / 1000

/-- Python truthiness of an optional timestamp (`ts.win_time and ...` treats
both `None` and `0.0` as false). -/
def truthyTime (x : Option ℚ) : Bool :=
  match x with
  | none => false
  | some v => decide (v ≠ 0)

/-- One row of `build_scoreboard`: the `g is None` placeholder row, or the
team's progress row with `time_sec = round(win_time - start_time, 3)` when
finished and both times are truthy. -/
def rowOf (start_time : Option ℚ) (t : TeamSrv) : Row :=
  match t.game with
  | none => ⟨t.team_id, false, 0, 0, "N/A", 0, none⟩
  | some g =>
    let total := g.v_blocks.length
    let bd := if g.finished then total else g.current_block
    let phase := if g.finished then "DONE" else g.current_phase
    let elapsed : Option ℚ :=
      if g.finished ∧ truthyTime t.win_time ∧ truthyTime start_time then
        match t.win_time, start_time with
        | some w, some st => some (round3 (w - st))
        | _, _ => none
      else none
    ⟨t.team_id, g.finished, bd, total, phase, g.errors, elapsed⟩

/-- The sort key `sk` of `build_scoreboard`, encoded as a 4-tuple ordered
lexicographically: `(0, time_sec)` for a finished row with a recorded time,
`(1, -blocks_done, team)` otherwise (padded with zeros so the two shapes
compare like Python tuples do on their common prefix). -/
def keyOf (r : Row) : Nat × ℚ × Int × Int :=
  if r.finished ∧ r.time_sec ≠ none then (0, r.time_sec.getD 0, 0, 0)
  else (1, 0, -(r.blocks_done : Int), r.team)

/-- Strict lexicographic order on the encoded sort keys. -/
def tupLt (x y : Nat × ℚ × Int × Int) : Bool :=
  decide (x.1 < y.1) ||
    (decide (x.1 = y.1) &&
      (decide (x.2.1 < y.2.1) ||
        (decide (x.2.1 = y.2.1) &&
          (decide (x.2.2.1 < y.2.2.1) ||
            (decide (x.2.2.1 = y.2.2.1) && decide (x.2.2.2 < y.2.2.2))))))

/-- Stable insertion used to model Python's stable `list.sort(key=sk)`:
an element moves past exactly the earlier elements that are strictly below
it, so elements with equal keys keep their original order. -/
def insertK (lt : α → α → Bool) (x : α) : List α → List α
  | [] => [x]
  | y :: ys => if lt y x then y :: insertK lt x ys else x :: y :: ys

/-- Stable insertion sort (extensionally, Python's stable `sort`). -/
def sortK (lt : α → α → Bool) : List α → List α
  | [] => []
  | x :: xs => insertK lt x (sortK lt xs)

/-- `HillServer.build_scoreboard`: one row per team (dict iteration order =
insertion order, modelled by the list order), sorted by `sk`. -/
def build_scoreboard (start_time : Option ℚ) (teams : List TeamSrv) : List Row :=
  sortK (fun a b => tupLt (keyOf a) (keyOf b)) (teams.map (rowOf start_time))

/-- Adjacent-pairs check that a list is sorted under `le`. -/
def sortedByB (le : α → α → Bool) : List α → Bool
  | [] => true
  | [_] => true
  | a :: b :: rest => le a b && sortedByB le (b :: rest)

/-- Modelled from the spec: the sort key the specification claims
(`finished` descending, then `time_sec` ascending, then `blocks_done`
descending, then `team_id` ascending), used to compare the claimed order with
the implemented one. -/
def claimKey (r : Row) : Nat × ℚ × Int × Int :=
  ((if r.finished then 0 else 1), r.time_sec.getD 0, -(r.blocks_done : Int), r.team)

end Server

/-! ## Claim C1 — failed validations mutate only `errors`

The claim asserts every rejection increments `errors` by exactly one.  The
`"Fase desconocida."` (unknown phase) branch of `validate_step` returns
`False` *without* incrementing `errors`, so the claim fails as stated; every
other rejection — including the caught-exception path — increments `errors` by
exactly one and changes nothing else. -/

namespace GameCore

/-- C1 (amended): a rejected `validate_step` leaves every field but `errors`
unchanged, and increments `errors` by exactly one unless the phase string is
unknown (not one of TPW/TMSG/A/B/C/D) and no exception was raised, in which
case the state is returned entirely unchanged. -/
theorem claim1_rejection_mutates_only_errors (s : GameState) (phase : String)
    (vector : List Int) (h : (validate_step s phase vector).ok = false) :
    (validate_step s phase vector).state =
      { s with errors := (validate_step s phase vector).state.errors } ∧
    ((validate_step s phase vector).state.errors = s.errors + 1 ∨
      (phase ∉ (["TPW", "TMSG", "A", "B", "C", "D"] : List String) ∧
        (validate_step s phase vector).state.errors = s.errors)) := by
  by_cases h1 : phase = "TPW"
  · by_cases hv : vector = s.expected_pwd_ascii <;>
      simp_all [validate_step, validate_step_try, incErr]
  · by_cases h2 : phase = "TMSG"
    · by_cases hv : vector = s.expected_msg_ascii <;>
        simp_all [validate_step, validate_step_try, incErr]
    · cases htw : tweakTry s.current_block s.n s.m s.key_sum with
      | none => simp_all [validate_step, validate_step_try, incErr]
      | some t =>
        by_cases h3 : phase = "A"
        · cases hc : compATry s t with
          | none => simp_all [validate_step, validate_step_try, incErr]
          | some comp =>
            by_cases hv : vector = comp <;>
              simp_all [validate_step, validate_step_try, incErr]
        · by_cases h4 : phase = "B"
          · cases hu : s.u with
            | none => simp_all [validate_step, validate_step_try, incErr]
            | some u =>
              cases hc : sboxListTry u s.m with
              | none => simp_all [validate_step, validate_step_try, incErr]
              | some comp =>
                by_cases hv : vector = comp <;>
                  simp_all [validate_step, validate_step_try, incErr]
          · by_cases h5 : phase = "C"
            · cases hu : s.uprime with
              | none => simp_all [validate_step, validate_step_try, incErr]
              | some up =>
                cases hc : matVecMulTry s.M up s.m with
                | none => simp_all [validate_step, validate_step_try, incErr]
                | some comp =>
                  by_cases hv : vector = comp <;>
                    simp_all [validate_step, validate_step_try, incErr]
            · by_cases h6 : phase = "D"
              · cases hw : s.w with
                | none => simp_all [validate_step, validate_step_try, incErr]
                | some wv =>
                  cases hc : compDTry s wv t with
                  | none => simp_all [validate_step, validate_step_try, incErr]
                  | some comp =>
                    by_cases hv : vector = comp <;>
                      simp_all [validate_step, validate_step_try, incErr]
              · simp_all [validate_step, validate_step_try, incErr]

/-- C1 (counterexample): on the unknown phase `"X"` the validator rejects but
does not increment `errors`, refuting the claim that every rejection
increments `errors` by exactly one. -/
theorem claim1_counterexample :
    ¬ ((validate_step
          { password := [], message := [], n := 0, m := 1, M := [], b := [],
            IV := [], key_sum := 0 } "X" []).ok = false →
        (validate_step
          { password := [], message := [], n := 0, m := 1, M := [], b := [],
            IV := [], key_sum := 0 } "X" []).state.errors =
          ({ password := [], message := [], n := 0, m := 1, M := [], b := [],
             IV := [], key_sum := 0 } : GameState).errors + 1) := by
  decide

/-- C1 witness: the amended theorem applied to a concrete rejected TPW
attempt. -/
theorem claim1_witness :
    (validate_step
        { password := [], message := [], n := 0, m := 1, M := [], b := [],
          IV := [], key_sum := 0 } "TPW" [1]).state =
      { ({ password := [], message := [], n := 0, m := 1, M := [], b := [],
           IV := [], key_sum := 0 } : GameState) with
        errors := (validate_step
          { password := [], message := [], n := 0, m := 1, M := [], b := [],
            IV := [], key_sum := 0 } "TPW" [1]).state.errors } ∧
    ((validate_step
        { password := [], message := [], n := 0, m := 1, M := [], b := [],
          IV := [], key_sum := 0 } "TPW" [1]).state.errors =
      ({ password := [], message := [], n := 0, m := 1, M := [], b := [],
         IV := [], key_sum := 0 } : GameState).errors + 1 ∨
      ("TPW" ∉ (["TPW", "TMSG", "A", "B", "C", "D"] : List String) ∧
        (validate_step
          { password := [], message := [], n := 0, m := 1, M := [], b := [],
            IV := [], key_sum := 0 } "TPW" [1]).state.errors =
          ({ password := [], message := [], n := 0, m := 1, M := [], b := [],
             IV := [], key_sum := 0 } : GameState).errors)) :=
  claim1_rejection_mutates_only_errors _ "TPW" [1] (by decide)

end GameCore

namespace GameCore

/-- `mapM` over `Option` succeeds pointwise. -/
theorem mapM_option_of_forall {α β : Type} (l : List α) (f : α → Option β) (g : α → β)
    (h : ∀ a ∈ l, f a = some (g a)) : l.mapM f = some (l.map g) := by
  induction l with
  | nil => rfl
  | cons x xs ih =>
    rw [List.mapM_cons, h x (by simp), ih fun a ha => h a (List.mem_cons_of_mem _ ha)]
    rfl

/-- In-range `get?` through the `getD`-based indexing helper. -/
theorem getElem?_eq_idx {l : List Int} {j : Nat} (h : j < l.length) :
    l[j]? = some (idx l j) := by
  simp [idx, List.getD_eq_getElem?_getD, List.getElem?_eq_getElem h]

/-- The tweak list has length `n`. -/
theorem tweak_length (i n : Nat) (m ks : Int) : (tweak i n m ks).length = n := by
  unfold tweak
  rw [List.length_map, List.length_range]

/-- `tweakTry` succeeds whenever the modulus is nonzero. -/
theorem tweakTry_eq_some (i n : Nat) {m : Int} (ks : Int) (hm : m ≠ 0) :
    tweakTry i n m ks = some (tweak i n m ks) := by
  simp [tweakTry, hm]

/-- The phase-A comparison succeeds on a well-formed state and equals the
elementwise formula. -/
theorem compATry_eq (s : GameState) (t : List Int) (ht : s.n ≤ t.length)
    (hi : s.current_block < s.v_blocks.length)
    (hrow : s.n ≤ (rowAt s.v_blocks s.current_block).length)
    (hprev : s.n ≤ s.prev_vec.length) :
    compATry s t = some ((List.range s.n).map fun j =>
      (idx (rowAt s.v_blocks s.current_block) j + idx s.prev_vec j + idx t j) % s.m) := by
  unfold compATry
  refine mapM_option_of_forall _ _ _ fun j hj => ?_
  rw [List.mem_range] at hj
  have hvb : s.v_blocks[s.current_block]? = some (rowAt s.v_blocks s.current_block) := by
    simp [rowAt, List.getD_eq_getElem?_getD, List.getElem?_eq_getElem hi]
  simp [hvb, getElem?_eq_idx (lt_of_lt_of_le hj hrow), getElem?_eq_idx (lt_of_lt_of_le hj hprev),
    getElem?_eq_idx (lt_of_lt_of_le hj ht)]

/-- The phase-A comparison raises `IndexError` once the block index is past
the end of `v_blocks` (and at least one entry is computed). -/
theorem compATry_none (s : GameState) (t : List Int)
    (h : s.v_blocks.length ≤ s.current_block) (hn : 0 < s.n) :
    compATry s t = none := by
  obtain ⟨k, hk⟩ : ∃ k, s.n = k + 1 := ⟨s.n - 1, by omega⟩
  unfold compATry
  rw [hk, List.range_succ_eq_map, List.mapM_cons]
  have hvb : s.v_blocks[s.current_block]? = none := List.getElem?_eq_none h
  simp [hvb]

/-- The phase-D comparison succeeds on a well-formed state and equals the
elementwise formula. -/
theorem compDTry_eq (s : GameState) (wv t : List Int) (hw : s.n ≤ wv.length)
    (hb : s.n ≤ s.b.length) (ht : s.n ≤ t.length) :
    compDTry s wv t = some ((List.range s.n).map fun j =>
      (idx wv j + idx s.b j + idx t j) % s.m) := by
  unfold compDTry
  refine mapM_option_of_forall _ _ _ fun j hj => ?_
  rw [List.mem_range] at hj
  simp [getElem?_eq_idx (lt_of_lt_of_le hj hw), getElem?_eq_idx (lt_of_lt_of_le hj hb),
    getElem?_eq_idx (lt_of_lt_of_le hj ht)]

end GameCore

/-! ## Claim C2 — the TPW/TMSG gates

The claim asserts the TPW step is rejected once `ascii_pw_done` is true.  The
`"TPW"` branch of `validate_step` never consults `ascii_pw_done`: it accepts
any vector equal to `expected_pwd_ascii`, so a second correct submission
succeeds again (likewise TMSG and `ascii_msg_done`). -/

namespace GameCore

/-- C2 (amended): `validate_step` accepts a TPW (resp. TMSG) submission iff
the vector equals the expected ASCII translation, regardless of
`ascii_pw_done` (resp. `ascii_msg_done`); on success it only sets the gate
flag (TMSG also sets the phase to `"A"`), so submitting the correct vector
twice succeeds both times. -/
theorem claim2_tpw_not_gated (s : GameState) (v : List Int) :
    ((validate_step s "TPW" v).ok = true ↔ v = s.expected_pwd_ascii) ∧
    (v = s.expected_pwd_ascii →
      (validate_step s "TPW" v).state = { s with ascii_pw_done := true } ∧
      (validate_step (validate_step s "TPW" v).state "TPW" v).ok = true) ∧
    ((validate_step s "TMSG" v).ok = true ↔ v = s.expected_msg_ascii) ∧
    (v = s.expected_msg_ascii →
      (validate_step s "TMSG" v).state = { s with ascii_msg_done := true, current_phase := "A" } ∧
      (validate_step (validate_step s "TMSG" v).state "TMSG" v).ok = true) := by
  by_cases hp : v = s.expected_pwd_ascii <;>
    by_cases hm : v = s.expected_msg_ascii <;>
    simp_all [validate_step, validate_step_try, incErr]

/-- C2 (counterexample): a state with `ascii_pw_done = true` still accepts the
expected TPW vector, refuting "rejected for every vector once the gate is
done". -/
theorem claim2_counterexample :
    ¬ (({ password := [], message := [], n := 0, m := 1, M := [], b := [],
          IV := [], key_sum := 0, ascii_pw_done := true,
          expected_pwd_ascii := [5] } : GameState).ascii_pw_done = true →
        (validate_step
          { password := [], message := [], n := 0, m := 1, M := [], b := [],
            IV := [], key_sum := 0, ascii_pw_done := true,
            expected_pwd_ascii := [5] } "TPW" [5]).ok = false) := by
  decide

/-- C2 witness: the amended theorem at a concrete state, with the success
hypothesis discharged. -/
theorem claim2_witness :
    (validate_step
        { password := [], message := [], n := 0, m := 1, M := [], b := [],
          IV := [], key_sum := 0, expected_pwd_ascii := [7] } "TPW" [7]).state =
      { ({ password := [], message := [], n := 0, m := 1, M := [], b := [],
           IV := [], key_sum := 0, expected_pwd_ascii := [7] } : GameState) with
        ascii_pw_done := true } ∧
    (validate_step
      (validate_step
        { password := [], message := [], n := 0, m := 1, M := [], b := [],
          IV := [], key_sum := 0, expected_pwd_ascii := [7] } "TPW" [7]).state
      "TPW" [7]).ok = true :=
  (claim2_tpw_not_gated _ [7]).2.1 (by decide)

end GameCore

/-! ## Claim C3 — the phase-A gate

The claim asserts a phase-A submission succeeds only when
`current_phase = "A"`.  The `"A"` branch of `validate_step` never consults
`current_phase`: on a well-formed state it accepts exactly the vector
`(v_blocks[i] + prev_vec + t_i) mod m`, whatever the current phase. -/

namespace GameCore

/-- C3 (amended): on a state whose ASCII gates are done and whose fields are
well-formed (`0 < m`, block index in range, row/chain vectors long enough), a
phase-A submission is accepted iff the vector equals
`(v_blocks[i] + prev_vec + t_i) mod m` elementwise — regardless of
`current_phase`; on success `u` is stored and `current_phase` becomes `"B"`. -/
theorem claim3_phase_a (s : GameState) (v : List Int)
    (hpw : s.ascii_pw_done = true) (hmsg : s.ascii_msg_done = true)
    (hm : 0 < s.m) (hi : s.current_block < s.v_blocks.length)
    (hrow : s.n ≤ (rowAt s.v_blocks s.current_block).length)
    (hprev : s.n ≤ s.prev_vec.length) :
    ((validate_step s "A" v).ok = true ↔
      v = (List.range s.n).map fun j =>
        (idx (rowAt s.v_blocks s.current_block) j + idx s.prev_vec j +
          idx (tweak s.current_block s.n s.m s.key_sum) j) % s.m) ∧
    (v = ((List.range s.n).map fun j =>
        (idx (rowAt s.v_blocks s.current_block) j + idx s.prev_vec j +
          idx (tweak s.current_block s.n s.m s.key_sum) j) % s.m) →
      (validate_step s "A" v).state = { s with u := some v, current_phase := "B" }) := by
  have ht := tweakTry_eq_some s.current_block s.n s.key_sum (by omega : s.m ≠ 0)
  have hc := compATry_eq s (tweak s.current_block s.n s.m s.key_sum)
    (le_of_eq (tweak_length _ _ _ _).symm) hi hrow hprev
  by_cases hv : v = (List.range s.n).map fun j =>
      (idx (rowAt s.v_blocks s.current_block) j + idx s.prev_vec j +
        idx (tweak s.current_block s.n s.m s.key_sum) j) % s.m <;>
    simp_all [validate_step, validate_step_try, incErr]

/-- C3 (counterexample): a concrete well-formed state in phase `"B"` (both
ASCII gates done) accepts a phase-A submission, refuting "valid only when
`current_phase = A`". -/
theorem claim3_counterexample :
    (validate_step
        { password := [], message := [], n := 1, m := 5, M := [[1]], b := [0],
          IV := [0], key_sum := 0, ascii_pw_done := true, ascii_msg_done := true,
          current_phase := "B", prev_vec := [0], v_blocks := [[1]] } "A" [2]).ok = true ∧
    ({ password := [], message := [], n := 1, m := 5, M := [[1]], b := [0],
       IV := [0], key_sum := 0, ascii_pw_done := true, ascii_msg_done := true,
       current_phase := "B", prev_vec := [0], v_blocks := [[1]] } : GameState).current_phase ≠ "A" ∧
    ({ password := [], message := [], n := 1, m := 5, M := [[1]], b := [0],
       IV := [0], key_sum := 0, ascii_pw_done := true, ascii_msg_done := true,
       current_phase := "B", prev_vec := [0], v_blocks := [[1]] } : GameState).ascii_pw_done = true ∧
    ({ password := [], message := [], n := 1, m := 5, M := [[1]], b := [0],
       IV := [0], key_sum := 0, ascii_pw_done := true, ascii_msg_done := true,
       current_phase := "B", prev_vec := [0], v_blocks := [[1]] } : GameState).ascii_msg_done = true := by
  decide

/-- C3 witness: the amended theorem at a concrete state (in phase `"B"`),
with every hypothesis discharged. -/
theorem claim3_witness :
    (validate_step
        { password := [], message := [], n := 1, m := 5, M := [[1]], b := [0],
          IV := [0], key_sum := 0, ascii_pw_done := true, ascii_msg_done := true,
          current_phase := "B", prev_vec := [0], v_blocks := [[1]] } "A" [2]).state =
      { ({ password := [], message := [], n := 1, m := 5, M := [[1]], b := [0],
           IV := [0], key_sum := 0, ascii_pw_done := true, ascii_msg_done := true,
           current_phase := "B", prev_vec := [0], v_blocks := [[1]] } : GameState) with
        u := some [2], current_phase := "B" } :=
  (claim3_phase_a _ [2] (by decide) (by decide) (by decide) (by decide)
    (by decide) (by decide)).2 (by decide)

end GameCore

/-! ## Claim C4 — the phase-D transition and the chained vector -/

namespace GameCore

/-- C4: on a state in phase `"D"` with `w` set (and well-formed fields), a
phase-D submission is accepted exactly for `(w + b + t_i) mod m`; in that
single step the vector is appended to `c_blocks`, copied into `prev_vec`,
`u`/`u'`/`w` are cleared, `current_block` is incremented, `current_phase` is
reset to `"A"`, and `finished` is set exactly when the new `current_block`
reaches `len(v_blocks)`.  Moreover `prev_vec` equals `IV` on every freshly
initialised state (before block 0) and equals the last completed ciphertext
block afterwards. -/
theorem claim4_phase_d :
    (∀ (s : GameState) (wv v : List Int),
      s.current_phase = "D" → s.w = some wv → 0 < s.m →
      s.n ≤ wv.length → s.n ≤ s.b.length →
      (((validate_step s "D" v).ok = true ↔
        v = (List.range s.n).map fun j =>
          (idx wv j + idx s.b j + idx (tweak s.current_block s.n s.m s.key_sum) j) % s.m) ∧
      (v = ((List.range s.n).map fun j =>
          (idx wv j + idx s.b j + idx (tweak s.current_block s.n s.m s.key_sum) j) % s.m) →
        (validate_step s "D" v).state =
          { s with c_blocks := s.c_blocks ++ [v], prev_vec := v,
                   u := none, uprime := none, w := none,
                   current_phase := "A", current_block := s.current_block + 1,
                   finished := s.finished || decide (s.v_blocks.length ≤ s.current_block + 1) } ∧
        (validate_step s "D" v).state.c_blocks.getLast? =
          some (validate_step s "D" v).state.prev_vec ∧
        (s.finished = false →
          ((validate_step s "D" v).state.finished = true ↔
            s.v_blocks.length ≤ s.current_block + 1))))) ∧
    (∀ (pw msg : List Nat) (n fuel : Nat) (st : GameState),
      initial_state pw msg n fuel = some st → st.prev_vec = st.IV) := by
  constructor
  · intro s wv v hphase hw hm hwlen hblen
    have ht := tweakTry_eq_some s.current_block s.n s.key_sum (by omega : s.m ≠ 0)
    have hc := compDTry_eq s wv (tweak s.current_block s.n s.m s.key_sum) hwlen hblen
      (le_of_eq (tweak_length _ _ _ _).symm)
    by_cases hv : v = (List.range s.n).map fun j =>
        (idx wv j + idx s.b j + idx (tweak s.current_block s.n s.m s.key_sum) j) % s.m <;>
      simp_all [validate_step, validate_step_try, incErr, List.getLast?_concat]
  · intro pw msg n fuel st h
    unfold initial_state at h
    split at h
    · exact absurd h (by simp)
    · split at h
      · exact absurd h (by simp)
      · split at h
        · exact absurd h (by simp)
        · cases hd : derive_params_from_password pw n fuel with
          | none => rw [hd] at h; exact absurd h (by simp)
          | some ps =>
            rw [hd] at h
            simp only [Option.bind_some, Option.some_inj] at h
            cases h
            rfl

/-- C4 witness: the phase-D part applied to a concrete mid-game state, and the
initial-state part applied to the `PAZ9`/`Hils` challenge. -/
theorem claim4_witness :
    (validate_step
        { password := [], message := [], n := 1, m := 5, M := [[1]], b := [1],
          IV := [0], key_sum := 0, ascii_pw_done := true, ascii_msg_done := true,
          current_phase := "D", prev_vec := [0], w := some [2],
          v_blocks := [[1]] } "D" [4]).state =
      { ({ password := [], message := [], n := 1, m := 5, M := [[1]], b := [1],
           IV := [0], key_sum := 0, ascii_pw_done := true, ascii_msg_done := true,
           current_phase := "D", prev_vec := [0], w := some [2],
           v_blocks := [[1]] } : GameState) with
        c_blocks := [[4]], prev_vec := [4], u := none, uprime := none, w := none,
        current_phase := "A", current_block := 1, finished := true } ∧
    ∀ (st : GameState),
      initial_state [80, 65, 90, 57] [72, 105, 108, 115] 2 600 = some st →
      st.prev_vec = st.IV := by
  constructor
  · have h := (claim4_phase_d.1
      { password := [], message := [], n := 1, m := 5, M := [[1]], b := [1],
        IV := [0], key_sum := 0, ascii_pw_done := true, ascii_msg_done := true,
        current_phase := "D", prev_vec := [0], w := some [2], v_blocks := [[1]] }
      [2] [4] (by decide) (by decide) (by decide) (by decide) (by decide)).2 (by decide)
    exact h.1.trans (by decide)
  · exact fun st => claim4_phase_d.2 [80, 65, 90, 57] [72, 105, 108, 115] 2 600 st

end GameCore

/-! ## Claim C10 — totality of `validate_step`

`validate_step` is total by construction; the embedded `try:` body
(`validate_step_try`) returns `none` exactly where the Python body raises, and
the `except` wrapper converts that into a rejection that increments `errors`
by one.  In particular a phase-A submission with `current_block` past the end
of `v_blocks` raises `IndexError` internally and is answered with a
diagnostic rejection rather than propagating the exception. -/

namespace GameCore

/-- C10: `validate_step` always returns a result; whenever the embedded body
raises (`validate_step_try = none`), the result is a rejection with a
diagnostic message and `errors` incremented by exactly one; and the body does
raise for a phase-A submission whose block index is past the end of
`v_blocks`. -/
theorem claim10_validate_step_total :
    (∀ (s : GameState) (phase : String) (v : List Int),
      ∃ r : VResult, validate_step s phase v = r ∧
        (validate_step_try s phase v = none →
          r.ok = false ∧ r.msg.isSome = true ∧ r.state = incErr s)) ∧
    (∀ (s : GameState) (v : List Int),
      s.v_blocks.length ≤ s.current_block → 0 < s.n →
      validate_step_try s "A" v = none ∧
      validate_step s "A" v = ⟨false, some "Error.", incErr s⟩) := by
  constructor
  · intro s phase v
    refine ⟨validate_step s phase v, rfl, fun h => ?_⟩
    simp [validate_step, h]
  · intro s v hpast hn
    have hnone : validate_step_try s "A" v = none := by
      unfold validate_step_try
      cases htw : tweakTry s.current_block s.n s.m s.key_sum with
      | none => simp [htw]
      | some t => simp [htw, compATry_none s t hpast hn]
    exact ⟨hnone, by simp [validate_step, hnone]⟩

/-- C10 witness: the past-the-end phase-A scenario on a concrete finished
state. -/
theorem claim10_witness :
    validate_step
        { password := [], message := [], n := 1, m := 5, M := [[1]], b := [0],
          IV := [0], key_sum := 0, current_block := 1, finished := true,
          v_blocks := [[1]] } "A" [0] =
      ⟨false, some "Error.",
        incErr { password := [], message := [], n := 1, m := 5, M := [[1]], b := [0],
                 IV := [0], key_sum := 0, current_block := 1, finished := true,
                 v_blocks := [[1]] }⟩ :=
  (claim10_validate_step_total.2
    { password := [], message := [], n := 1, m := 5, M := [[1]], b := [0],
      IV := [0], key_sum := 0, current_block := 1, finished := true,
      v_blocks := [[1]] } [0] (by decide) (by decide)).2

end GameCore

/-! ## Prime search: correctness of `is_prime` and of the odd-step search -/

namespace GameCore

/-- The trial-division loop is correct when the invariant "no divisor below
`i`" holds and the fuel dominates the remaining distance. -/
theorem isPrimeLoop_correct (p : Nat) (hp : 2 ≤ p) (hodd : p % 2 = 1) :
    ∀ (fuel i : Nat), 3 ≤ i → i % 2 = 1 → p + 2 ≤ i + 2 * fuel →
      (∀ d, 2 ≤ d → d < i → ¬ d ∣ p) →
      (isPrimeLoop p i fuel = true ↔ Nat.Prime p) := by
  intro fuel
  induction fuel with
  | zero =>
    intro i h3 hi hfuel hinv
    exact absurd (dvd_refl p) (hinv p hp (by omega))
  | succ fuel ih =>
    intro i h3 hi hfuel hinv
    by_cases hii : i * i ≤ p
    · by_cases hmod : p % i = 0
      · have hdvd : i ∣ p := Nat.dvd_of_mod_eq_zero hmod
        have hip : i ≠ p := by
          intro he
          rw [he] at hii
          nlinarith
        simp only [isPrimeLoop, if_pos hii, if_pos hmod]
        constructor
        · intro h; exact absurd h (by simp)
        · intro hpr
          rcases (Nat.Prime.eq_one_or_self_of_dvd hpr i hdvd) with h1 | h1
          · omega
          · exact absurd h1 hip
      · have hrec : isPrimeLoop p i (fuel + 1) = isPrimeLoop p (i + 2) fuel := by
          simp only [isPrimeLoop, if_pos hii, if_neg hmod]
        rw [hrec]
        refine ih (i + 2) (by omega) (by omega) (by omega) fun d h2 hd => ?_
        rcases Nat.lt_or_ge d i with hlt | hge
        · exact hinv d h2 hlt
        · rcases Nat.eq_or_lt_of_le hge with rfl | hgt
          · exact fun hdp => hmod (Nat.mod_eq_zero_of_dvd hdp)
          · have hde : d = i + 1 := by omega
            intro hdp
            have h2d : 2 ∣ d := by omega
            have : 2 ∣ p := dvd_trans h2d hdp
            omega
    · have htrue : isPrimeLoop p i (fuel + 1) = true := by
        simp only [isPrimeLoop, if_neg hii]
      rw [htrue]
      simp only [true_iff]
      rw [Nat.prime_def_le_sqrt]
      refine ⟨hp, fun m h2 hsq => ?_⟩
      have hmm : m * m ≤ p := Nat.le_sqrt.mp hsq
      have hmi : m < i := by nlinarith
      exact hinv m h2 hmi

/-- `is_prime` agrees with primality. -/
theorem is_prime_iff (p : Nat) : is_prime p = true ↔ Nat.Prime p := by
  unfold is_prime
  by_cases h2 : p < 2
  · simp only [if_pos h2]
    constructor
    · intro h; exact absurd h (by simp)
    · intro h; exact absurd h.two_le (by omega)
  · by_cases he : p % 2 = 0
    · simp only [if_neg h2, if_pos he]
      constructor
      · intro h
        have : p = 2 := by simpa using h
        rw [this]; norm_num
      · intro h
        have : p = 2 := ((Nat.Prime.even_iff h).mp (Nat.even_iff.mpr he))
        simp [this]
    · simp only [if_neg h2, if_neg he]
      refine isPrimeLoop_correct p (by omega) (by omega) p 3 (by omega) (by omega)
        (by omega) fun d hd hd3 => ?_
      have : d = 2 := by omega
      rw [this]
      intro hdp
      have : p % 2 = 0 := Nat.mod_eq_zero_of_dvd hdp
      omega

/-- Soundness of the fuelled odd-step search: a found value passes the test,
lies on the step-2 progression, and every earlier progression point fails. -/
theorem next_prime_search_sound (c : Nat → Bool) (fuel : Nat) :
    ∀ p q, next_prime_search c p fuel = some q →
      (is_prime q && c q) = true ∧ p ≤ q ∧ (q - p) % 2 = 0 ∧
      ∀ r, p ≤ r → r < q → (r - p) % 2 = 0 → (is_prime r && c r) = false := by
  induction fuel with
  | zero => intro p q h; simp [next_prime_search] at h
  | succ fuel ih =>
    intro p q h
    by_cases hc : (is_prime p && c p) = true
    · have : some p = some q := by simpa [next_prime_search, hc] using h
      cases this
      exact ⟨hc, le_refl _, by omega, fun r h1 h2 _ => absurd h2 (by omega)⟩
    · have hrec : next_prime_search c (p + 2) fuel = some q := by
        simpa [next_prime_search, hc] using h
      obtain ⟨hq, hpq, hpar, hbet⟩ := ih (p + 2) q hrec
      refine ⟨hq, by omega, by omega, fun r h1 h2 hr => ?_⟩
      rcases Nat.eq_or_lt_of_le h1 with rfl | hlt
      · exact Bool.eq_false_iff.mpr hc
      · exact hbet r (by omega) h2 (by omega)

/-- Fuel monotonicity of the search. -/
theorem next_prime_search_mono (c : Nat → Bool) (fuel : Nat) :
    ∀ fuel' p q, next_prime_search c p fuel = some q → fuel ≤ fuel' →
      next_prime_search c p fuel' = some q := by
  induction fuel with
  | zero => intro fuel' p q h _; simp [next_prime_search] at h
  | succ fuel ih =>
    intro fuel' p q h hle
    obtain ⟨fuel'', rfl⟩ : ∃ k, fuel' = k + 1 := ⟨fuel' - 1, by omega⟩
    by_cases hc : (is_prime p && c p) = true
    · have : some p = some q := by simpa [next_prime_search, hc] using h
      cases this
      simp [next_prime_search, hc]
    · have hrec : next_prime_search c (p + 2) fuel = some q := by
        simpa [next_prime_search, hc] using h
      have := ih fuel'' (p + 2) q hrec (by omega)
      simpa [next_prime_search, hc] using this

/-- The search finds `q` when `q` passes, every earlier progression point
fails, and the fuel dominates the distance. -/
theorem next_prime_search_reaches (c : Nat → Bool) (fuel : Nat) :
    ∀ p q, p ≤ q → (q - p) % 2 = 0 → (is_prime q && c q) = true →
      (∀ r, p ≤ r → r < q → (r - p) % 2 = 0 → (is_prime r && c r) = false) →
      (q - p) / 2 < fuel →
      next_prime_search c p fuel = some q := by
  induction fuel with
  | zero => intro p q _ _ _ _ h; omega
  | succ fuel ih =>
    intro p q hpq hpar hq hbet hfuel
    rcases Nat.eq_or_lt_of_le hpq with rfl | hlt
    · simp [next_prime_search, hq]
    · have hfail : (is_prime p && c p) = false := hbet p (le_refl _) hlt (by omega)
      have hrec := ih (p + 2) q (by omega) (by omega) hq
        (fun r h1 h2 hr => hbet r (by omega) h2 (by omega)) (by omega)
      simpa [next_prime_search, hfail] using hrec

/-- Below 257 the derivation condition fails, so no search step succeeds. -/
theorem deriveCond_fails_below {r : Nat} (h : r < 257) :
    (is_prime r && deriveCond r) = false := by
  have hc : deriveCond r = false := by
    simp only [deriveCond]
    simp only [Bool.and_eq_false_iff]
    right
    simpa using by omega
  simp [hc]

end GameCore

/-! ## Claim C7 — `next_prime_condition` from a low seed

The claim asserts termination for *every* start below 257.  For `start ≤ 2`
the loop starts at `p = 2`; since `2` fails the `p ≥ 257` condition, the loop
steps to `4` and then scans even numbers forever — it never terminates.  For
`3 ≤ start < 257` it terminates and returns exactly `257` (the first prime
satisfying the condition). -/

namespace GameCore

/-- From an even start `≥ 4` the search visits only even non-primes and never
returns, whatever the fuel. -/
theorem next_prime_search_even_none (c : Nat → Bool) (fuel : Nat) :
    ∀ p, p % 2 = 0 → 4 ≤ p → next_prime_search c p fuel = none := by
  induction fuel with
  | zero => intro p _ _; rfl
  | succ fuel ih =>
    intro p hp h4
    have hip : is_prime p = false := by
      unfold is_prime
      rw [if_neg (by omega : ¬ p < 2), if_pos hp]
      simp only [decide_eq_false_iff_not]
      omega
    simpa [next_prime_search, hip] using ih (p + 2) (by omega) (by omega)

/-- C7 (amended): for every start with `3 ≤ start < 257` the search
terminates (for any fuel of at least 200) and returns `257`, which is a prime
`≥ 257` satisfying the derivation condition. -/
theorem claim7_low_seed_returns_257 (start : Nat) (h3 : 3 ≤ start)
    (h257 : start < 257) (fuel : Nat) (hfuel : 200 ≤ fuel) :
    next_prime_condition start deriveCond fuel = some 257 ∧
    Nat.Prime 257 ∧ deriveCond 257 = true := by
  refine ⟨?_, by norm_num, by decide⟩
  have h257p : (is_prime 257 && deriveCond 257) = true := by decide
  have hmax : max 2 start = start := by omega
  by_cases he : start % 2 = 0
  · have hcond : (decide (start % 2 = 0) && decide (start ≠ 2)) = true := by
      simp only [Bool.and_eq_true, decide_eq_true_eq]
      omega
    have hred : next_prime_condition start deriveCond fuel =
        next_prime_search deriveCond (start + 1) fuel := by
      simp only [next_prime_condition, hmax]
      rw [if_pos hcond]
    rw [hred]
    exact next_prime_search_reaches deriveCond fuel (start + 1) 257 (by omega)
      (by omega) h257p
      (fun r h1 h2 _ => deriveCond_fails_below h2) (by omega)
  · have hcond : (decide (start % 2 = 0) && decide (start ≠ 2)) = false := by
      simp only [Bool.and_eq_false_iff, decide_eq_false_iff_not]
      left; omega
    have hred : next_prime_condition start deriveCond fuel =
        next_prime_search deriveCond start fuel := by
      simp only [next_prime_condition, hmax]
      rw [if_neg (by simp [hcond]; omega)]
    rw [hred]
    exact next_prime_search_reaches deriveCond fuel start 257 (by omega)
      (by omega) h257p
      (fun r h1 h2 _ => deriveCond_fails_below h2) (by omega)

/-- C7 (counterexample): with start `2` (which is below 257) the loop never
returns, for any amount of fuel — the code loops forever over even numbers —
refuting the claim that every start below 257 terminates with a prime. -/
theorem claim7_counterexample :
    2 < 257 ∧ ¬ ∃ (fuel q : Nat), next_prime_condition 2 deriveCond fuel = some q := by
  refine ⟨by norm_num, ?_⟩
  rintro ⟨fuel, q, h⟩
  have h2 : next_prime_search deriveCond 2 fuel = some q := by
    simpa [next_prime_condition] using h
  cases fuel with
  | zero => simp [next_prime_search] at h2
  | succ fuel =>
    have hfail : (is_prime 2 && deriveCond 2) = false := by decide
    rw [show next_prime_search deriveCond 2 (fuel + 1) =
        next_prime_search deriveCond 4 fuel by simp [next_prime_search, hfail]] at h2
    rw [next_prime_search_even_none deriveCond fuel 4 rfl (le_refl 4)] at h2
    exact absurd h2 (by simp)

/-- C7 witness: the amended theorem at `start = 10`, `fuel = 200`. -/
theorem claim7_witness :
    next_prime_condition 10 deriveCond 200 = some 257 ∧
    Nat.Prime 257 ∧ deriveCond 257 = true :=
  claim7_low_seed_returns_257 10 (by norm_num) (by norm_num) 200 (le_refl 200)

end GameCore

/-! ## Claim C6 — `derive_prime_from_password` returns the least admissible prime -/

namespace GameCore

/-- `next_prime_condition` with start above `2` is the plain search from the
start value, bumped to the next odd number when even. -/
theorem next_prime_condition_eq_search (st : Nat) (h2 : 2 < st) (c : Nat → Bool)
    (fuel : Nat) :
    next_prime_condition st c fuel =
      next_prime_search c (if st % 2 = 0 then st + 1 else st) fuel := by
  have hmax : max 2 st = st := by omega
  by_cases he : st % 2 = 0
  · have hcond : (decide (st % 2 = 0) && decide (st ≠ 2)) = true := by
      simp only [Bool.and_eq_true, decide_eq_true_eq]
      omega
    simp only [next_prime_condition, hmax]
    rw [if_pos hcond, if_pos he]
  · have hcond : (decide (st % 2 = 0) && decide (st ≠ 2)) = false := by
      simp only [Bool.and_eq_false_iff, decide_eq_false_iff_not]
      left; omega
    simp only [next_prime_condition, hmax]
    rw [if_neg (by simp [hcond]; omega), if_neg he]

set_option maxRecDepth 10000 in
/-- Every possible seed value finds a prime within 200 search steps. -/
theorem allSeedsSome :
    ∀ s, s < 1000 → (next_prime_condition (257 + s) deriveCond 200).isSome = true := by
  decide

/-- C6: for any password byte string (and any search fuel of at least 200),
`derive_prime_from_password` succeeds and returns exactly the smallest prime
`p ≥ seed = 257 + (Σ bytes mod 1000)` with `(p-1) mod 3 ≠ 0` and `p ≥ 257`;
in particular the returned modulus is prime, at least 257, and one less than
it is not divisible by 3. -/
theorem claim6_derive_prime (pw : List Nat) (fuel : Nat) (hfuel : 200 ≤ fuel) :
    ∃ m, derive_prime_from_password pw fuel = some m ∧
      Nat.Prime m ∧ 257 ≤ m ∧ (m - 1) % 3 ≠ 0 ∧ seedOf pw ≤ m ∧
      ∀ q, Nat.Prime q → 257 ≤ q → (q - 1) % 3 ≠ 0 → seedOf pw ≤ q → m ≤ q := by
  have hs1000 : pw.sum % 1000 < 1000 := Nat.mod_lt _ (by norm_num)
  have hseed : seedOf pw = 257 + pw.sum % 1000 := rfl
  have h2 : 2 < seedOf pw := by omega
  obtain ⟨m, hm⟩ : ∃ m, next_prime_condition (seedOf pw) deriveCond 200 = some m := by
    have := allSeedsSome (pw.sum % 1000) hs1000
    rw [← hseed] at this
    exact Option.isSome_iff_exists.mp this
  -- lift to the given fuel using the search reduction and monotonicity
  rw [next_prime_condition_eq_search _ h2] at hm
  have hm' := next_prime_search_mono deriveCond 200 fuel _ m hm hfuel
  have hmc : next_prime_condition (seedOf pw) deriveCond fuel = some m := by
    rw [next_prime_condition_eq_search _ h2]
    exact hm'
  obtain ⟨hqtest, hple, hpar, hbet⟩ := next_prime_search_sound deriveCond fuel _ m hm'
  have hip : is_prime m = true := by
    rcases Bool.and_eq_true_iff.mp hqtest with ⟨h1, _⟩
    exact h1
  have hdc : deriveCond m = true := by
    rcases Bool.and_eq_true_iff.mp hqtest with ⟨_, h1⟩
    exact h1
  have hprime : Nat.Prime m := (is_prime_iff m).mp hip
  have hd3 : (m - 1) % 3 ≠ 0 ∧ 257 ≤ m := by
    simpa [deriveCond, Bool.and_eq_true, decide_eq_true_eq] using hdc
  have hp0 : (if seedOf pw % 2 = 0 then seedOf pw + 1 else seedOf pw) ≤ m := hple
  have hseedle : seedOf pw ≤ m := by
    by_cases he : seedOf pw % 2 = 0 <;> simp [he] at hp0 <;> omega
  refine ⟨m, hmc, hprime, hd3.2, hd3.1, hseedle, ?_⟩
  intro q hq h257 hq3 hqseed
  by_contra hlt
  push_neg at hlt
  -- q is an odd prime on the search progression strictly below m: contradiction
  have hqodd : q % 2 = 1 := by
    rcases Nat.Prime.eq_two_or_odd hq with h | h
    · omega
    · exact h
  have hp0odd : (if seedOf pw % 2 = 0 then seedOf pw + 1 else seedOf pw) % 2 = 1 := by
    by_cases he : seedOf pw % 2 = 0 <;> simp [he] <;> omega
  have hqge : (if seedOf pw % 2 = 0 then seedOf pw + 1 else seedOf pw) ≤ q := by
    by_cases he : seedOf pw % 2 = 0 <;> simp [he] <;> omega
  have hfail := hbet q hqge hlt (by omega)
  have : (is_prime q && deriveCond q) = true := by
    rw [(is_prime_iff q).mpr hq]
    simp only [deriveCond, Bool.true_and, Bool.and_eq_true, decide_eq_true_eq]
    exact ⟨hq3, h257⟩
  rw [this] at hfail
  exact absurd hfail (by simp)

/-- C6 witness: the theorem at the `PAZ9` password bytes with fuel 200. -/
theorem claim6_witness :
    ∃ m, derive_prime_from_password [80, 65, 90, 57] 200 = some m ∧
      Nat.Prime m ∧ 257 ≤ m ∧ (m - 1) % 3 ≠ 0 ∧ seedOf [80, 65, 90, 57] ≤ m ∧
      ∀ q, Nat.Prime q → 257 ≤ q → (q - 1) % 3 ≠ 0 → seedOf [80, 65, 90, 57] ≤ q → m ≤ q :=
  claim6_derive_prime [80, 65, 90, 57] 200 (le_refl 200)

end GameCore

/-! ## Claim C9 — the scoreboard rows and their order

The claim asserts rows are sorted by
`(finished desc, time_sec asc, blocks_done desc, team_id asc)`.  The
implemented key is `(0, time_sec)` for a finished row with a recorded time and
`(1, -blocks_done, team)` for every other row: among finished teams with equal
times there is *no* team-id tiebreak (the stable sort keeps dictionary
insertion order), and a finished team without a recorded time sorts with the
unfinished group.  The claim fails as stated; the rows are sorted exactly by
the implemented key. -/

namespace Server

/-- The implemented sort key viewed inside Mathlib's lexicographic order. -/
def keyLexOf (k : Nat × ℚ × Int × Int) : Lex (Nat × Lex (ℚ × Lex (Int × Int))) :=
  toLex (k.1, toLex (k.2.1, toLex (k.2.2.1, k.2.2.2)))

/-- `tupLt` is the strict lexicographic order. -/
theorem tupLt_iff_lex (x y : Nat × ℚ × Int × Int) :
    tupLt x y = true ↔ keyLexOf x < keyLexOf y := by
  obtain ⟨a1, a2, a3, a4⟩ := x
  obtain ⟨b1, b2, b3, b4⟩ := y
  simp [tupLt, keyLexOf, Prod.Lex.lt_iff]

/-- `tupLt x y = false` is the lexicographic `y ≤ x`. -/
theorem tupLt_false_iff_le (x y : Nat × ℚ × Int × Int) :
    tupLt x y = false ↔ keyLexOf y ≤ keyLexOf x := by
  rw [Bool.eq_false_iff, Ne, tupLt_iff_lex, not_lt]

/-- The sortedness relation of `build_scoreboard`: the key of the left row is
no greater than the key of the right row. -/
def RowLe (a b : Row) : Prop := tupLt (keyOf b) (keyOf a) = false

theorem rowLe_trans {a b c : Row} (h1 : RowLe a b) (h2 : RowLe b c) : RowLe a c := by
  rw [RowLe, tupLt_false_iff_le] at *
  exact le_trans h1 h2

/-- Inserting permutes. -/
theorem insertK_perm (lt : α → α → Bool) (x : α) (l : List α) :
    (insertK lt x l).Perm (x :: l) := by
  induction l with
  | nil => exact List.Perm.refl _
  | cons y ys ih =>
    unfold insertK
    by_cases h : lt y x = true
    · rw [if_pos h]
      exact (ih.cons y).trans (List.Perm.swap x y ys)
    · rw [if_neg h]

/-- Sorting permutes. -/
theorem sortK_perm (lt : α → α → Bool) (l : List α) : (sortK lt l).Perm l := by
  induction l with
  | nil => exact List.Perm.refl _
  | cons x xs ih =>
    exact (insertK_perm lt x (sortK lt xs)).trans (ih.cons x)

/-- Stable insertion preserves sortedness under the implemented key. -/
theorem insertK_pairwise (x : Row) (l : List Row)
    (hl : l.Pairwise RowLe) :
    (insertK (fun a b => tupLt (keyOf a) (keyOf b)) x l).Pairwise RowLe := by
  induction l with
  | nil => simp [insertK]
  | cons y ys ih =>
    rcases List.pairwise_cons.mp hl with ⟨hy, hys⟩
    unfold insertK
    by_cases h : tupLt (keyOf y) (keyOf x) = true
    · rw [if_pos h]
      refine List.pairwise_cons.mpr ⟨?_, ih hys⟩
      intro z hz
      rcases List.mem_cons.mp
          ((insertK_perm (fun a b => tupLt (keyOf a) (keyOf b)) x ys).mem_iff.mp hz) with
        rfl | hzys
      · rw [RowLe, Bool.eq_false_iff]
        intro hxy
        exact absurd ((tupLt_iff_lex _ _).mp h) (not_lt.mpr (le_of_lt ((tupLt_iff_lex _ _).mp hxy)))
      · exact hy z hzys
    · rw [if_neg h]
      refine List.pairwise_cons.mpr ⟨?_, hl⟩
      intro z hz
      rcases List.mem_cons.mp hz with rfl | hzys
      · exact Bool.eq_false_iff.mpr h
      · exact rowLe_trans (Bool.eq_false_iff.mpr h) (hy z hzys)

/-- The implemented sort produces a key-sorted list. -/
theorem sortK_pairwise (l : List Row) :
    (sortK (fun a b => tupLt (keyOf a) (keyOf b)) l).Pairwise RowLe := by
  induction l with
  | nil => simp [sortK]
  | cons x xs ih => exact insertK_pairwise x _ ih

/-- C9 (amended): `build_scoreboard` returns exactly one row per team (a
permutation of the per-team rows, stably sorted), the rows are sorted by the
*implemented* key — finished teams with a recorded nonzero time first,
ordered by `time_sec` ascending with no further tiebreak; all other teams
(including finished teams without a recorded time) after, ordered by
`blocks_done` descending then team id ascending — and each row carries
`team`, `finished`, `blocks_done`, `total_blocks`, `phase`, `errors` and
`time_sec = round(win_time - start_time, 3)` when finished with truthy times,
`none` otherwise. -/
theorem claim9_scoreboard (start_time : Option ℚ) (teams : List TeamSrv) :
    (build_scoreboard start_time teams).Perm (teams.map (rowOf start_time)) ∧
    (build_scoreboard start_time teams).Pairwise RowLe ∧
    (∀ (t : TeamSrv) (g : GameCore.GameState) (w st : ℚ),
      t.game = some g → g.finished = true → t.win_time = some w →
      start_time = some st → w ≠ 0 → st ≠ 0 →
      rowOf start_time t = ⟨t.team_id, true, g.v_blocks.length, g.v_blocks.length,
        "DONE", g.errors, some (round3 (w - st))⟩) ∧
    (∀ t : TeamSrv, t.game = none →
      rowOf start_time t = ⟨t.team_id, false, 0, 0, "N/A", 0, none⟩) := by
  refine ⟨sortK_perm _ _, sortK_pairwise _, ?_, ?_⟩
  · intro t g w st hg hfin hw hst hw0 hst0
    subst hst
    simp [rowOf, hg, hfin, hw, truthyTime, hw0, hst0]
  · intro t hg
    simp [rowOf, hg]

/-- C9 (counterexample): two finished teams with equal recorded times, stored
in dictionary order `[2, 1]`, come out in that order — the claimed
`team_id ascending` tiebreak does not hold, refuting the claimed sort order. -/
theorem claim9_counterexample :
    sortedByB (fun a b => !(tupLt (claimKey b) (claimKey a)))
      (build_scoreboard (some 100)
        [⟨2, some { password := [], message := [], n := 2, m := 5, M := [], b := [],
                    IV := [], key_sum := 0, finished := true,
                    v_blocks := [[1, 2]] }, some 105⟩,
         ⟨1, some { password := [], message := [], n := 2, m := 5, M := [], b := [],
                    IV := [], key_sum := 0, finished := true,
                    v_blocks := [[1, 2]] }, some 105⟩]) = false := by
  norm_num [build_scoreboard, sortK, insertK, rowOf, keyOf, claimKey, tupLt,
    sortedByB, round3, truthyTime]

/-- C9 witness: the row-content part of the amended theorem at a concrete
finished team. -/
theorem claim9_witness :
    rowOf (some 100)
      ⟨1, some { password := [], message := [], n := 2, m := 5, M := [], b := [],
                 IV := [], key_sum := 0, finished := true,
                 v_blocks := [[1, 2]] }, some 105⟩ =
      ⟨1, true, 1, 1, "DONE", 0, some 5⟩ := by
  have h := (claim9_scoreboard (some 100)
      [⟨1, some { password := [], message := [], n := 2, m := 5, M := [], b := [],
                  IV := [], key_sum := 0, finished := true,
                  v_blocks := [[1, 2]] }, some 105⟩]).2.2.1
    ⟨1, some { password := [], message := [], n := 2, m := 5, M := [], b := [],
               IV := [], key_sum := 0, finished := true,
               v_blocks := [[1, 2]] }, some 105⟩
    { password := [], message := [], n := 2, m := 5, M := [], b := [],
      IV := [], key_sum := 0, finished := true, v_blocks := [[1, 2]] }
    105 100 rfl rfl rfl rfl (by norm_num) (by norm_num)
  rw [h]
  norm_num [round3]

end Server

/-! ## Claim C8 — the per-connection rate limiter -/

namespace Server

/-- On a chronologically sorted window, the purge loop removes exactly the
entries older than 2 seconds. -/
theorem purge_eq_filter (t : ℚ) (l : List ℚ) (hl : l.Pairwise (· ≤ ·)) :
    purge t l = l.filter fun x => decide (t - x ≤ RATE_LIMIT_WINDOW) := by
  induction l with
  | nil => rfl
  | cons x xs ih =>
    rcases List.pairwise_cons.mp hl with ⟨hx, hxs⟩
    by_cases h : RATE_LIMIT_WINDOW < t - x
    · have hd : decide (RATE_LIMIT_WINDOW < t - x) = true := decide_eq_true h
      have hf : decide (t - x ≤ RATE_LIMIT_WINDOW) = false := by
        simp only [decide_eq_false_iff_not, not_le]
        exact h
      simp only [purge, List.dropWhile_cons, hd, if_true, List.filter_cons, hf]
      exact ih hxs
    · have hd : decide (RATE_LIMIT_WINDOW < t - x) = false := by
        simp only [decide_eq_false_iff_not]
        exact h
      have hf : decide (t - x ≤ RATE_LIMIT_WINDOW) = true := by
        simp only [decide_eq_true_eq]
        exact not_lt.mp h
      simp only [purge, List.dropWhile_cons, hd, List.filter_cons, hf, if_true]
      rw [if_neg (by simp)]
      congr 1
      symm
      rw [List.filter_eq_self]
      intro y hy
      simp only [decide_eq_true_eq]
      have := hx y hy
      linarith [not_lt.mp h]

/-- A suffix whose elements all pass a filter is a suffix of the filtered
list. -/
theorem suffix_filter_of_all {s l : List ℚ} (p : ℚ → Bool) (h : s.IsSuffix l)
    (hall : ∀ x ∈ s, p x = true) : s.IsSuffix (l.filter p) := by
  obtain ⟨pre, rfl⟩ := h
  refine ⟨pre.filter p, ?_⟩
  rw [List.filter_append]
  congr 1
  exact (List.filter_eq_self.mpr hall).symm

/-- The in-window history at a later instant is the refiltering of the
in-window history at an earlier one. -/
theorem winOf_mono (ts : List ℚ) (now t' : ℚ) (h : now ≤ t') :
    winOf t' ts = (winOf now ts).filter fun x => decide (t' - x ≤ RATE_LIMIT_WINDOW) := by
  unfold winOf
  rw [List.filter_filter]
  apply List.filter_congr
  intro x _
  by_cases hx : t' - x ≤ RATE_LIMIT_WINDOW
  · have : now - x ≤ RATE_LIMIT_WINDOW := by linarith
    simp [hx, this]
  · simp [hx]

/-- The filtered window is sorted and bounded by the history bound. -/
theorem winOf_pairwise (ts : List ℚ) (now : ℚ) (h : ts.Pairwise (· ≤ ·)) :
    (winOf now ts).Pairwise (· ≤ ·) :=
  h.sublist (List.filter_sublist ts)

end Server

namespace Server

/-- One limiter step preserves the window invariant. -/
theorem inv_step (ts : List ℚ) (now t' : ℚ) (q : List ℚ)
    (hts : ts.Pairwise (· ≤ ·)) (hbound : ∀ x ∈ ts, x ≤ now) (hnow : now ≤ t')
    (hinv : WinInv ts now q) :
    WinInv (ts ++ [t']) t' (purge t' (pushMaxlen q t')) := by
  obtain ⟨⟨pre, hpre⟩, hdisj, hqlen⟩ := hinv
  have hWsorted : (winOf now ts).Pairwise (· ≤ ·) := winOf_pairwise ts now hts
  have hWmem : ∀ x ∈ winOf now ts, x ≤ now := fun x hx =>
    hbound x (List.mem_of_mem_filter hx)
  have hqsuf : q.IsSuffix (winOf now ts) := ⟨pre, hpre⟩
  have hqsub : q.Sublist (winOf now ts) := hqsuf.sublist
  have hqsorted : q.Pairwise (· ≤ ·) := hWsorted.sublist hqsub
  have hqmem : ∀ x ∈ q, x ≤ now := fun x hx => hWmem x (hqsub.subset hx)
  have hpt : decide (t' - t' ≤ RATE_LIMIT_WINDOW) = true := by
    simp only [decide_eq_true_eq]
    norm_num [RATE_LIMIT_WINDOW]
  have hW' : winOf t' (ts ++ [t']) =
      ((winOf now ts).filter fun x => decide (t' - x ≤ RATE_LIMIT_WINDOW)) ++ [t'] := by
    have h1 : winOf t' (ts ++ [t']) = winOf t' ts ++ winOf t' [t'] := by
      unfold winOf
      rw [List.filter_append]
    rw [h1, winOf_mono ts now t' hnow]
    congr 1
    unfold winOf
    simp only [List.filter_cons, List.filter_nil]
    rw [if_pos hpt]
  by_cases hev : 32 < (q ++ [t']).length
  · -- the deque was full: the append evicts the oldest entry
    have hq32 : q.length = 32 := by
      simp only [List.length_append, List.length_singleton] at hev
      omega
    obtain ⟨h0, qt, rfl⟩ : ∃ h0 qt, q = h0 :: qt := by
      cases q with
      | nil => simp at hq32
      | cons a l => exact ⟨a, l, rfl⟩
    have h31 : qt.length = 31 := by
      simp only [List.length_cons] at hq32
      omega
    have hpush : pushMaxlen (h0 :: qt) t' = qt ++ [t'] := by
      simp [pushMaxlen, h31]
    have hqtsorted : (qt ++ [t']).Pairwise (· ≤ ·) := by
      rw [List.pairwise_append]
      refine ⟨(List.pairwise_cons.mp hqsorted).2, List.pairwise_singleton _ _, ?_⟩
      intro x hx y hy
      rw [List.mem_singleton] at hy
      subst hy
      exact le_trans (hqmem x (List.mem_cons_of_mem _ hx)) hnow
    have hpurge : purge t' (qt ++ [t']) =
        (qt.filter fun x => decide (t' - x ≤ RATE_LIMIT_WINDOW)) ++ [t'] := by
      rw [purge_eq_filter _ _ hqtsorted, List.filter_append]
      congr 1
      simp only [List.filter_cons, List.filter_nil]
      rw [if_pos hpt]
    rw [hpush, hpurge]
    by_cases hall : ∀ x ∈ qt, decide (t' - x ≤ RATE_LIMIT_WINDOW) = true
    · -- nothing purged: the window stays at capacity
      have hself : (qt.filter fun x => decide (t' - x ≤ RATE_LIMIT_WINDOW)) = qt :=
        List.filter_eq_self.mpr hall
      rw [hself]
      have hsufqt : qt.IsSuffix (winOf now ts) := by
        obtain ⟨u, hu⟩ := hqsuf
        exact ⟨u ++ [h0], by simpa using hu⟩
      have hsuf' : qt.IsSuffix ((winOf now ts).filter
          fun x => decide (t' - x ≤ RATE_LIMIT_WINDOW)) :=
        suffix_filter_of_all _ hsufqt hall
      refine ⟨?_, ?_, ?_⟩
      · rw [hW']
        obtain ⟨u, hu⟩ := hsuf'
        exact ⟨u, by rw [← List.append_assoc, hu]⟩
      · right
        simp only [List.length_append, List.length_singleton]
        simp only [List.length_cons] at hq32
        omega
      · simp only [List.length_append, List.length_singleton]
        simp only [List.length_cons] at hq32
        omega
    · -- an in-capacity entry aged out: the window is the full history window
      push_neg at hall
      obtain ⟨y, hy, hyf⟩ := hall
      have hyold : RATE_LIMIT_WINDOW < t' - y := by
        by_contra hc
        push_neg at hc
        exact hyf (decide_eq_true hc)
      have hWq : winOf now ts = pre ++ h0 :: qt := hpre.symm
      have hfilter_eq : ((winOf now ts).filter
          fun x => decide (t' - x ≤ RATE_LIMIT_WINDOW)) =
          qt.filter fun x => decide (t' - x ≤ RATE_LIMIT_WINDOW) := by
        rw [hWq, List.filter_append, List.filter_cons]
        have hpre_le : ∀ z ∈ pre, z ≤ y := by
          intro z hz
          have := (List.pairwise_append.mp (hWq ▸ hWsorted)).2.2
          exact this z hz y (List.mem_cons_of_mem _ hy)
        have hh0_le : h0 ≤ y := (List.pairwise_cons.mp hqsorted).1 y hy
        have hpre_f : pre.filter (fun x => decide (t' - x ≤ RATE_LIMIT_WINDOW)) = [] := by
          rw [List.filter_eq_nil_iff]
          intro z hz
          simp only [decide_eq_true_eq, not_le]
          have := hpre_le z hz
          linarith
        have hh0_f : decide (t' - h0 ≤ RATE_LIMIT_WINDOW) = false := by
          simp only [decide_eq_false_iff_not, not_le]
          linarith
        rw [hpre_f, hh0_f]
        simp
      rw [← hfilter_eq]
      refine ⟨?_, ?_, ?_⟩
      · rw [hW']
      · left
        rw [hW']
      · rw [hfilter_eq]
        simp only [List.length_append, List.length_singleton]
        have := List.length_filter_le (fun x => decide (t' - x ≤ RATE_LIMIT_WINDOW)) qt
        simp only [List.length_cons] at hq32
        omega
  · -- the deque was not full: plain append
    have hpush : pushMaxlen q t' = q ++ [t'] := by
      simp only [pushMaxlen]
      rw [if_neg hev]
    have hq31 : q.length ≤ 31 := by
      simp only [List.length_append, List.length_singleton] at hev
      omega
    have hqW : q = winOf now ts := by
      rcases hdisj with h | h
      · exact h
      · omega
    have hqtsorted : (q ++ [t']).Pairwise (· ≤ ·) := by
      rw [List.pairwise_append]
      refine ⟨hqsorted, List.pairwise_singleton _ _, ?_⟩
      intro x hx y hy
      rw [List.mem_singleton] at hy
      subst hy
      exact le_trans (hqmem x hx) hnow
    have hpurge : purge t' (q ++ [t']) =
        (q.filter fun x => decide (t' - x ≤ RATE_LIMIT_WINDOW)) ++ [t'] := by
      rw [purge_eq_filter _ _ hqtsorted, List.filter_append]
      congr 1
      simp only [List.filter_cons, List.filter_nil]
      rw [if_pos hpt]
    rw [hpush, hpurge, hqW]
    refine ⟨?_, Or.inl ?_, ?_⟩
    · rw [hW']
    · rw [hW']
    · simp only [List.length_append, List.length_singleton]
      have := List.length_filter_le (fun x => decide (t' - x ≤ RATE_LIMIT_WINDOW))
        (winOf now ts)
      rw [← hqW] at this ⊢
      omega

end Server

namespace Server

/-- Processing a list of events preserves the window invariant, the final
"now" being the last event's time. -/
theorem runState_keeps_inv (evs : List Event) :
    ∀ (ts : List ℚ) (now : ℚ) (q : List ℚ),
      ts.Pairwise (· ≤ ·) → (∀ x ∈ ts, x ≤ now) →
      (∀ e ∈ evs, now ≤ e.time) → (evs.map Event.time).Pairwise (· ≤ ·) →
      WinInv ts now q →
      WinInv (ts ++ evs.map Event.time) ((evs.map Event.time).getLastD now)
        (runState q evs) := by
  induction evs with
  | nil =>
    intro ts now q _ _ _ _ hinv
    simpa [runState] using hinv
  | cons e rest ih =>
    intro ts now q h1 h2 h3 h4 hinv
    have hnow_e : now ≤ e.time := h3 e (List.mem_cons_self _ _)
    have hstep := inv_step ts now e.time q h1 h2 hnow_e hinv
    have h1' : (ts ++ [e.time]).Pairwise (· ≤ ·) := by
      rw [List.pairwise_append]
      refine ⟨h1, List.pairwise_singleton _ _, ?_⟩
      intro x hx y hy
      rw [List.mem_singleton] at hy
      subst hy
      exact le_trans (h2 x hx) hnow_e
    have h2' : ∀ x ∈ ts ++ [e.time], x ≤ e.time := by
      intro x hx
      rcases List.mem_append.mp hx with h | h
      · exact le_trans (h2 x h) hnow_e
      · rw [List.mem_singleton] at h
        subst h
        exact le_refl _
    have h4s : (∀ a ∈ rest, e.time ≤ a.time) ∧
        (rest.map Event.time).Pairwise (· ≤ ·) := by simpa using h4
    have h3' : ∀ e' ∈ rest, e.time ≤ e'.time := fun e' he' => h4s.1 e' he'
    have h4' : (rest.map Event.time).Pairwise (· ≤ ·) := h4s.2
    have hrec := ih (ts ++ [e.time]) e.time (limiterStep q e).1 h1' h2' h3' h4' hstep
    have hgl : ((e :: rest).map Event.time).getLastD now =
        (rest.map Event.time).getLastD e.time := by
      rw [List.map_cons, List.getLastD_cons]
    rw [hgl]
    have happ : ts ++ (e :: rest).map Event.time = (ts ++ [e.time]) ++ rest.map Event.time := by
      simp
    rw [happ]
    exact hrec

/-- Processing splits along append. -/
theorem runState_append (l1 l2 : List Event) :
    ∀ q, runState q (l1 ++ l2) = runState (runState q l1) l2 := by
  induction l1 with
  | nil => intro q; rfl
  | cons e rest ih => intro q; exact ih (limiterStep q e).1

/-- The recorded rate-limit flag of the `k`-th message. -/
theorem runLimiter_getD (evs : List Event) :
    ∀ (q : List ℚ) (k : Nat), k < evs.length →
      (runLimiter q evs).getD k true =
        (limiterStep (runState q (evs.take k)) (evs.getD k default)).2 := by
  induction evs with
  | nil => intro q k hk; simp at hk
  | cons e rest ih =>
    intro q k hk
    cases k with
    | zero => simp [runLimiter, runState]
    | succ k =>
      have := ih (limiterStep q e).1 k (by simpa using hk)
      simpa [runLimiter, runState] using this

/-- `take (k+1)` appends the `k`-th element. -/
theorem take_succ_getD {α : Type} (l : List α) (d : α) (k : Nat) (hk : k < l.length) :
    l.take (k + 1) = l.take k ++ [l.getD k d] := by
  rw [List.take_succ]
  congr 1
  rw [List.getElem?_eq_getElem hk]
  simp [List.getD_eq_getElem?_getD, List.getElem?_eq_getElem hk]

/-- Counting over indices equals counting over the prefix. -/
theorem length_filter_range_eq_take {α : Type} (l : List α) (d : α) (p : α → Bool) :
    ∀ n, n ≤ l.length →
      ((List.range n).filter fun i => p (l.getD i d)).length =
        ((l.take n).filter p).length := by
  intro n
  induction n with
  | zero => intro _; simp
  | succ n ih =>
    intro hn
    rw [List.range_succ, List.filter_append, List.length_append, ih (by omega),
      take_succ_getD l d n (by omega), List.filter_append, List.length_append]
    congr 1
    simp only [List.filter_cons, List.filter_nil]
    by_cases hp : p (l[n]?.getD d) = true <;> simp [hp]

/-- Strengthening the filter predicate cannot increase the count. -/
theorem length_filter_and_le {α : Type} (l : List α) (p q : α → Bool) :
    (l.filter fun a => p a && q a).length ≤ (l.filter q).length := by
  induction l with
  | nil => simp
  | cons x xs ih =>
    simp only [List.filter_cons]
    by_cases hq : q x = true
    · rw [if_pos hq]
      by_cases hpq : (p x && q x) = true
      · rw [if_pos hpq]
        simpa using ih
      · rw [if_neg hpq]
        simp only [List.length_cons]
        omega
    · have hq' : q x = false := by simpa using hq
      have hpq : (p x && q x) = false := by simp [hq']
      rw [if_neg (by simp [hpq]), if_neg (by simp [hq'])]
      exact ih

end Server

namespace Server

/-- The first message's time bounds every message's time from below. -/
theorem head_time_le (events : List Event)
    (hmono : (events.map Event.time).Pairwise (· ≤ ·)) :
    ∀ ev ∈ events, (events.getD 0 default).time ≤ ev.time := by
  cases events with
  | nil => intro ev h; simp at h
  | cons a l =>
    intro ev hev
    have hs : (∀ b ∈ l, a.time ≤ b.time) ∧ (l.map Event.time).Pairwise (· ≤ ·) := by
      simpa using hmono
    rcases List.mem_cons.mp hev with rfl | h
    · simp
    · simpa using hs.1 ev h

/-- C8: (i) for chronologically ordered messages, whenever the `k`-th message
is a `step_answer` that passes the rate limiter, at most
`RATE_LIMIT_MAX = 6` messages that pass the limiter as `step_answer`s lie
within the `RATE_LIMIT_WINDOW = 2.0`-second window ending at its time — every
`step_answer` appends its time to the window, entries older than 2.0 s are
purged on every check, and only a count above 6 is refused; (ii) in a burst
of seven immediate `step_answer`s the first six pass (the sixth is still
validated) and the seventh is answered with the rate-limit error. -/
theorem claim8_rate_limit :
    (∀ (events : List Event),
      (events.map Event.time).Pairwise (· ≤ ·) →
      ∀ k, k < events.length → passedStep events k = true →
      ((List.range (k + 1)).filter fun i =>
          passedStep events i &&
            decide ((events.getD k default).time - (events.getD i default).time ≤
              RATE_LIMIT_WINDOW)).length ≤ RATE_LIMIT_MAX) ∧
    runLimiter [] (List.replicate 7 ⟨0, true⟩) =
      [false, false, false, false, false, false, true] := by
  constructor
  · intro events hmono k hk hpass
    set e := events.getD k default with hedef
    have hpassc : e.isStep = true ∧ (runLimiter [] events).getD k true = false := by
      unfold passedStep at hpass
      rcases Bool.and_eq_true_iff.mp hpass with ⟨h1, h2⟩
      exact ⟨h1, by simpa using h2⟩
    have hstep2 : (limiterStep (runState [] (events.take k)) e).2 = false := by
      rw [← runLimiter_getD events [] k hk]
      exact hpassc.2
    have hq2len : ((limiterStep (runState [] (events.take k)) e).1).length ≤
        RATE_LIMIT_MAX := by
      have h2 := hstep2
      simp only [limiterStep, hpassc.1, Bool.true_and, decide_eq_false_iff_not,
        not_lt] at h2
      simpa [limiterStep] using h2
    have htq : events.take (k + 1) = events.take k ++ [e] := take_succ_getD events default k hk
    have hq2run : (limiterStep (runState [] (events.take k)) e).1 =
        runState [] (events.take (k + 1)) := by
      rw [htq, runState_append]
      rfl
    have hmapsub : List.Sublist ((events.take (k + 1)).map Event.time)
        (events.map Event.time) :=
      (List.take_sublist _ _).map _
    have hinv := runState_keeps_inv (events.take (k + 1)) []
      (events.getD 0 default).time []
      List.Pairwise.nil (by simp)
      (fun ev hev => head_time_le events hmono ev (List.mem_of_mem_take hev))
      (hmono.sublist hmapsub)
      ⟨⟨[], rfl⟩, Or.inl rfl, by simp⟩
    rw [List.nil_append] at hinv
    have hlast : ((events.take (k + 1)).map Event.time).getLastD
        (events.getD 0 default).time = e.time := by
      rw [htq, List.map_append]
      simp
    rw [hlast, ← hq2run] at hinv
    obtain ⟨hsuf, hdisj, hlen⟩ := hinv
    have hwin : (limiterStep (runState [] (events.take k)) e).1 =
        winOf e.time ((events.take (k + 1)).map Event.time) := by
      rcases hdisj with h | h
      · exact h
      · exfalso
        rw [h] at hq2len
        simp [RATE_LIMIT_MAX] at hq2len
    have hwinlen : (winOf e.time ((events.take (k + 1)).map Event.time)).length ≤
        RATE_LIMIT_MAX := by
      rw [← hwin]
      exact hq2len
    calc ((List.range (k + 1)).filter fun i =>
            passedStep events i &&
              decide (e.time - (events.getD i default).time ≤ RATE_LIMIT_WINDOW)).length
        ≤ ((List.range (k + 1)).filter fun i =>
            decide (e.time - (events.getD i default).time ≤ RATE_LIMIT_WINDOW)).length :=
          length_filter_and_le _ _ _
      _ = ((events.take (k + 1)).filter fun d =>
            decide (e.time - d.time ≤ RATE_LIMIT_WINDOW)).length :=
          length_filter_range_eq_take events default
            (fun d => decide (e.time - d.time ≤ RATE_LIMIT_WINDOW)) (k + 1) (by omega)
      _ = (winOf e.time ((events.take (k + 1)).map Event.time)).length := by
          unfold winOf
          rw [List.filter_map]
          simp only [List.length_map]
          rfl
      _ ≤ RATE_LIMIT_MAX := hwinlen
  · have h1 : ¬ ((2 : ℚ) < 0 - 0) := by norm_num
    have h2 : ((0 : ℚ) - 0 ≤ 2) := by norm_num
    simp [runLimiter, limiterStep, pushMaxlen, purge, RATE_LIMIT_WINDOW,
      RATE_LIMIT_MAX, List.replicate, h1, h2]

/-- C8 witness: the general bound applied to a concrete chronological burst of
seven `step_answer`s — the seventh still satisfies the bound because it was
refused. -/
theorem claim8_witness :
    ((List.range (5 + 1)).filter fun i =>
        passedStep (List.replicate 7 ⟨0, true⟩) i &&
          decide (((List.replicate 7 (⟨0, true⟩ : Event)).getD 5 default).time -
            ((List.replicate 7 (⟨0, true⟩ : Event)).getD i default).time ≤
            RATE_LIMIT_WINDOW)).length ≤ RATE_LIMIT_MAX := by
  refine claim8_rate_limit.1 (List.replicate 7 ⟨0, true⟩) ?_ 5 (by simp) ?_
  · simp [List.replicate]
  · unfold passedStep
    rw [claim8_rate_limit.2]
    simp [List.replicate]

end Server


/-! ## Claim C5 — decrypt ∘ encrypt is the identity

The claim quantifies over every block size `n`.  For `2 ≤ n ≤ 256` the
roundtrip is proved below (`claim5_roundtrip`): the proof runs through the
modular linear algebra (`det_mod`/`adjugate_mod`/`mat_inverse_mod` agree
with Mathlib's determinant, adjugate and inverse over `ZMod m`), Fermat
inversion of the cubing S-box, PKCS#7 padding, and the CBC-style chain.
At `n = 1` the claim fails: `adjugate_mod` of a `1 × 1` matrix is `[[0]]`
because the minor is the empty matrix, whose `det_mod` is `0` (Mathlib's
empty determinant is `1`), so `mat_inverse_mod` returns the zero matrix
and decryption cannot invert (`claim5_counterexample`). -/

namespace GameCore

theorem egcdFuel_correct :
    ∀ (fuel : Nat) (a b : Int), 0 ≤ a → 0 ≤ b → b.natAbs < fuel →
      (egcdFuel fuel a b).1 = (Int.gcd a b : Int) ∧
      a * (egcdFuel fuel a b).2.1 + b * (egcdFuel fuel a b).2.2 = (egcdFuel fuel a b).1 := by
  intro fuel
  induction fuel with
  | zero => intro a b _ _ h; omega
  | succ fuel ih =>
    intro a b ha hb hfuel
    by_cases hb0 : b = 0
    · subst hb0
      have hred : egcdFuel (fuel + 1) a 0 = (a, 1, 0) := by simp [egcdFuel]
      rw [hred]
      refine ⟨?_, by ring⟩
      rw [Int.gcd_zero_right, Int.natAbs_of_nonneg ha]
    · have hbpos : 0 < b := lt_of_le_of_ne hb (Ne.symm hb0)
      have hmod_nonneg : 0 ≤ a % b := Int.emod_nonneg a hb0
      have hmod_lt : a % b < b := Int.emod_lt_of_pos a hbpos
      have hfuel' : (a % b).natAbs < fuel := by omega
      obtain ⟨ihg, ihb⟩ := ih b (a % b) hb hmod_nonneg hfuel'
      have hred : egcdFuel (fuel + 1) a b =
          ((egcdFuel fuel b (a % b)).1, (egcdFuel fuel b (a % b)).2.2,
            (egcdFuel fuel b (a % b)).2.1 - (a / b) * (egcdFuel fuel b (a % b)).2.2) := by
        simp only [egcdFuel, if_neg hb0]
      rw [hred]
      constructor
      · rw [ihg]
        congr 1
        have hAB : (a % b).natAbs = a.natAbs % b.natAbs := by
          have hcast : a % b = ((a.natAbs % b.natAbs : Nat) : Int) := by
            rw [Int.ofNat_emod, Int.natAbs_of_nonneg ha, Int.natAbs_of_nonneg hb]
          rw [hcast, Int.natAbs_ofNat]
        unfold Int.gcd
        rw [hAB, Nat.gcd_comm b.natAbs (a.natAbs % b.natAbs), ← Nat.gcd_rec, Nat.gcd_comm]
      · have hemod : a % b = a - b * (a / b) := Int.emod_def a b
        linear_combination ihb - (egcdFuel fuel b (a % b)).2.2 * hemod

theorem inv_int_some_correct (a m : Int) (hm : 0 < m) (x : Int)
    (h : inv_int a m = some x) :
    a * x % m = 1 % m ∧ 0 ≤ x ∧ x < m := by
  unfold inv_int at h
  set r := egcd (a % m) m with hr
  by_cases hg : r.1 ≠ 1
  · rw [if_pos hg] at h
    exact absurd h (by simp)
  · rw [if_neg hg] at h
    push_neg at hg
    have hx : x = r.2.1 % m := by
      have h' := h
      simp only [Option.some.injEq] at h'
      exact h'.symm
    have hbez := (egcdFuel_correct (m.natAbs + 1) (a % m) m
      (Int.emod_nonneg a (by omega)) (le_of_lt hm) (by omega)).2
    rw [show egcdFuel (m.natAbs + 1) (a % m) m = r from rfl, hg] at hbez
    subst hx
    refine ⟨?_, Int.emod_nonneg _ (by omega), Int.emod_lt_of_pos _ hm⟩
    have step1 : a * (r.2.1 % m) % m = (a % m) * r.2.1 % m := by
      rw [Int.mul_emod, Int.mul_emod (a % m) r.2.1]
      simp only [Int.emod_emod_of_dvd _ (dvd_refl m)]
    have step2 : (a % m) * r.2.1 = 1 - m * r.2.2 := by linear_combination hbez
    rw [step1, step2, sub_eq_add_neg, ← mul_neg, Int.add_mul_emod_self_left]

theorem inv_int_isSome (a m : Int) (hm : 1 < m)
    (hg : Int.gcd (a % m) m = 1) : ∃ x, inv_int a m = some x := by
  unfold inv_int
  have h1 : (egcd (a % m) m).1 = 1 := by
    have h2 := (egcdFuel_correct (m.natAbs + 1) (a % m) m
      (Int.emod_nonneg a (by omega)) (by omega) (by omega)).1
    rw [show egcdFuel (m.natAbs + 1) (a % m) m = egcd (a % m) m from rfl] at h2
    rw [h2, hg]
    rfl
  rw [if_neg (by simp [h1])]
  exact ⟨_, rfl⟩

end GameCore

namespace Hascill

open GameCore

theorem intCast_emod_natCast (m : Nat) (a : Int) :
    ((a % (m : Int) : Int) : ZMod m) = (a : ZMod m) := by
  have h : a % (m : Int) = a - (m : Int) * (a / (m : Int)) := Int.emod_def a (m : Int)
  rw [h]
  push_cast
  simp [ZMod.natCast_self]

theorem intCast_inj_of_range {m : Nat} {a b : Int} (ha0 : 0 ≤ a) (ha : a < (m : Int))
    (hb0 : 0 ≤ b) (hb : b < (m : Int)) (h : (a : ZMod m) = (b : ZMod m)) : a = b := by
  have hmod := (ZMod.intCast_eq_intCast_iff a b m).mp h
  have h1 : a % (m : Int) = a := Int.emod_eq_of_lt ha0 ha
  have h2 : b % (m : Int) = b := Int.emod_eq_of_lt hb0 hb
  rwa [Int.ModEq, h1, h2] at hmod

theorem idx_map_range (f : Nat → Int) {n j : Nat} (hj : j < n) :
    idx ((List.range n).map f) j = f j := by
  unfold idx
  rw [List.getD_eq_getElem?_getD, List.getElem?_map, List.getElem?_range hj]
  rfl

theorem rowAt_map_range (f : Nat → List Int) {n i : Nat} (hi : i < n) :
    rowAt ((List.range n).map f) i = f i := by
  unfold rowAt
  rw [List.getD_eq_getElem?_getD, List.getElem?_map, List.getElem?_range hi]
  rfl

theorem map_range_congr {f g : Nat → Int} {n : Nat} (h : ∀ j, j < n → f j = g j) :
    (List.range n).map f = (List.range n).map g :=
  List.map_congr_left (fun a ha => h a (List.mem_range.mp ha))

theorem foldl_add_eq_sum (g : Nat → Int) (n : Nat) :
    ∀ init : Int, (List.range n).foldl (fun s j => s + g j) init
      = init + ∑ j ∈ Finset.range n, g j := by
  induction n with
  | zero => intro init; simp
  | succ n ih =>
    intro init
    rw [List.range_succ, List.foldl_append]
    simp only [List.foldl_cons, List.foldl_nil]
    rw [ih, Finset.sum_range_succ, add_assoc]

theorem foldl_mod_cast (m : Nat) (g : Nat → Int) (l : List Nat) :
    ∀ init : Int, ((l.foldl (fun total j => (total + g j) % (m : Int)) init : Int) : ZMod m)
      = (init : ZMod m) + (l.map fun j => ((g j : Int) : ZMod m)).sum := by
  induction l with
  | nil => intro init; simp
  | cons x xs ih =>
    intro init
    rw [List.foldl_cons, ih, List.map_cons, List.sum_cons, intCast_emod_natCast]
    push_cast
    ring

theorem list_sum_range_eq {M : Type} [AddCommMonoid M] (f : Nat → M) (n : Nat) :
    ((List.range n).map f).sum = ∑ j ∈ Finset.range n, f j := by
  induction n with
  | zero => simp
  | succ n ih =>
    rw [List.range_succ, List.map_append, List.sum_append, ih, Finset.sum_range_succ]
    simp

theorem mat_vec_mul_length (M : List (List Int)) (v : List Int) (m : Int) :
    (mat_vec_mul M v m).length = M.length := by
  simp [mat_vec_mul]

theorem idx_mat_vec_mul {M : List (List Int)} {v : List Int} {m : Int} {i : Nat}
    (hi : i < M.length) :
    idx (mat_vec_mul M v m) i =
      ((List.range M.length).foldl (fun s j => s + idx (rowAt M i) j * idx v j) 0) % m := by
  unfold mat_vec_mul
  exact idx_map_range _ hi

theorem mat_vec_mul_range {M : List (List Int)} {v : List Int} {m : Int} (hm : 0 < m)
    {i : Nat} (hi : i < M.length) :
    0 ≤ idx (mat_vec_mul M v m) i ∧ idx (mat_vec_mul M v m) i < m := by
  rw [idx_mat_vec_mul hi]
  exact ⟨Int.emod_nonneg _ (by omega), Int.emod_lt_of_pos _ hm⟩

theorem vecZ_mat_vec_mul (n m : Nat) (L : List (List Int)) (v : List Int)
    (hL : L.length = n) :
    vecZ n m (mat_vec_mul L v (m : Int)) = (matZ n m L).mulVec (vecZ n m v) := by
  funext i
  unfold vecZ
  rw [idx_mat_vec_mul (by omega : (i : Nat) < L.length)]
  rw [hL, intCast_emod_natCast, foldl_add_eq_sum]
  push_cast
  simp only [zero_add]
  rw [← Fin.sum_univ_eq_sum_range (fun j => ((idx (rowAt L i) j : Int) : ZMod m) * ((idx v j : Int) : ZMod m)) n]
  simp [Matrix.mulVec, Matrix.dotProduct, matZ]

end Hascill

namespace Hascill

open GameCore

theorem rowAt_eraseIdx (L : List (List Int)) (i a : Nat) :
    rowAt (L.eraseIdx i) a = if a < i then rowAt L a else rowAt L (a + 1) := by
  unfold rowAt
  simp only [List.getD_eq_getElem?_getD, List.getElem?_eraseIdx]
  split <;> rfl

theorem idx_eraseIdx (l : List Int) (j a : Nat) :
    idx (l.eraseIdx j) a = if a < j then idx l a else idx l (a + 1) := by
  unfold idx
  simp only [List.getD_eq_getElem?_getD, List.getElem?_eraseIdx]
  split <;> rfl

theorem rowAt_map_of_lt (f : List Int → List Int) (l : List (List Int)) (a : Nat)
    (h : a < l.length) :
    rowAt (l.map f) a = f (rowAt l a) := by
  unfold rowAt
  rw [List.getD_eq_getElem?_getD, List.getElem?_map, List.getElem?_eq_getElem h,
      List.getD_eq_getElem?_getD, List.getElem?_eq_getElem h]
  rfl

theorem val_succAbove {k : Nat} (p : Fin (k + 1)) (i : Fin k) :
    ((p.succAbove i : Fin (k + 1)) : Nat) =
      if (i : Nat) < (p : Nat) then (i : Nat) else (i : Nat) + 1 := by
  rcases lt_or_ge (Fin.castSucc i) p with h | h
  · rw [Fin.succAbove_of_castSucc_lt p i h, Fin.coe_castSucc,
      if_pos (by simpa [Fin.lt_def] using h)]
  · rw [Fin.succAbove_of_le_castSucc p i h, Fin.val_succ,
      if_neg (by simpa [Fin.le_def, Nat.not_lt] using h)]

theorem matrix_minor_length (L : List (List Int)) (i j : Nat) (h : i < L.length) :
    (matrix_minor L i j).length = L.length - 1 := by
  simp [matrix_minor, List.length_eraseIdx, h]

theorem altSign_eq_pow (j : Nat) : altSign j = (-1 : Int) ^ j := by
  unfold altSign
  rcases Nat.even_or_odd j with h | h
  · have h2 := Nat.even_iff.mp h
    rw [if_neg (by omega), h.neg_one_pow]
  · rw [if_pos (Nat.odd_iff.mp h), h.neg_one_pow]

theorem matZ_minor (k m : Nat) (L : List (List Int)) (hL : L.length = k + 1)
    (i0 j0 : Fin (k + 1)) :
    matZ k m (matrix_minor L (i0 : Nat) (j0 : Nat)) =
      (matZ (k + 1) m L).submatrix i0.succAbove j0.succAbove := by
  ext a b
  simp only [matZ, Matrix.of_apply, Matrix.submatrix_apply]
  congr 1
  unfold matrix_minor
  have hlen : (a : Nat) < (L.eraseIdx (i0 : Nat)).length := by
    rw [List.length_eraseIdx]
    rw [hL]
    have := i0.isLt
    have := a.isLt
    split <;> omega
  rw [rowAt_map_of_lt _ _ _ hlen, rowAt_eraseIdx, idx_eraseIdx,
    val_succAbove i0 a, val_succAbove j0 b]
  by_cases hia : (a : Nat) < (i0 : Nat) <;> by_cases hjb : (b : Nat) < (j0 : Nat) <;>
    simp [hia, hjb]

theorem det_modFuel_one (fuel : Nat) (L : List (List Int)) (hL : L.length = 1) (m : Int) :
    det_modFuel fuel L m = idx (rowAt L 0) 0 % m := by
  cases fuel <;> simp [det_modFuel, hL]

theorem det_modFuel_two (fuel : Nat) (L : List (List Int)) (hL : L.length = 2) (m : Int) :
    det_modFuel fuel L m =
      (idx (rowAt L 0) 0 * idx (rowAt L 1) 1 - idx (rowAt L 0) 1 * idx (rowAt L 1) 0) % m := by
  cases fuel <;> simp [det_modFuel, hL]

theorem det_modFuel_big (fuel k : Nat) (L : List (List Int)) (hL : L.length = k + 3) (m : Int) :
    det_modFuel (fuel + 1) L m =
      ((List.range (k + 3)).foldl
        (fun total j =>
          (total + altSign j * idx (rowAt L 0) j * det_modFuel fuel (matrix_minor L 0 j) m) % m)
        0) % m := by
  simp [det_modFuel, hL]

theorem det_cast_one (m : Nat) (fuel : Nat) (L : List (List Int)) (hL : L.length = 1) :
    ((det_modFuel fuel L (m : Int) : Int) : ZMod m) = (matZ 1 m L).det := by
  rw [det_modFuel_one fuel L hL, intCast_emod_natCast, Matrix.det_fin_one]
  rfl

theorem det_cast_two (m : Nat) (fuel : Nat) (L : List (List Int)) (hL : L.length = 2) :
    ((det_modFuel fuel L (m : Int) : Int) : ZMod m) = (matZ 2 m L).det := by
  rw [det_modFuel_two fuel L hL, intCast_emod_natCast, Matrix.det_fin_two]
  push_cast
  rfl

end Hascill

namespace Hascill

open GameCore

theorem det_modFuel_cast (m : Nat) :
    ∀ (fuel n : Nat) (L : List (List Int)), L.length = n → 1 ≤ n → n ≤ fuel + 2 →
      ((det_modFuel fuel L (m : Int) : Int) : ZMod m) = (matZ n m L).det := by
  intro fuel
  induction fuel with
  | zero =>
    intro n L hL h1 h2
    match n, h1, h2 with
    | 1, _, _ => exact det_cast_one m 0 L hL
    | 2, _, _ => exact det_cast_two m 0 L hL
  | succ fuel ih =>
    intro n L hL h1 h2
    match n, h1, h2 with
    | 1, _, _ => exact det_cast_one m (fuel + 1) L hL
    | 2, _, _ => exact det_cast_two m (fuel + 1) L hL
    | (k + 3), _, h2 =>
      rw [det_modFuel_big fuel k L hL, intCast_emod_natCast, foldl_mod_cast,
        list_sum_range_eq]
      rw [← Fin.sum_univ_eq_sum_range
        (fun j => ((altSign j * idx (rowAt L 0) j *
          det_modFuel fuel (matrix_minor L 0 j) (m : Int) : Int) : ZMod m)) (k + 3)]
      rw [Int.cast_zero, zero_add]
      rw [Matrix.det_succ_row_zero (matZ (k + 3) m L)]
      apply Finset.sum_congr rfl
      intro j _
      have hminor_len : (matrix_minor L 0 (j : Nat)).length = k + 2 := by
        rw [matrix_minor_length L 0 (j : Nat) (by omega)]
        omega
      rw [altSign_eq_pow]
      push_cast
      rw [ih (k + 2) (matrix_minor L 0 (j : Nat)) hminor_len (by omega) (by omega)]
      rw [show matrix_minor L 0 (j : Nat) =
        matrix_minor L ((0 : Fin (k + 3)) : Nat) (j : Nat) from rfl]
      rw [matZ_minor (k + 2) m L hL (0 : Fin (k + 3)) j, Fin.succAbove_zero]
      rfl

theorem det_mod_cast (n m : Nat) (L : List (List Int)) (hL : L.length = n) (h1 : 1 ≤ n) :
    ((det_mod L (m : Int) : Int) : ZMod m) = (matZ n m L).det := by
  unfold det_mod
  rw [hL]
  exact det_modFuel_cast m n n L hL h1 (by omega)

end Hascill

namespace Hascill

open GameCore

theorem adjugate_apply_cofactor {k : Nat} {R : Type} [CommRing R]
    (A : Matrix (Fin (k + 1)) (Fin (k + 1)) R) (i j : Fin (k + 1)) :
    A.adjugate i j = (-1) ^ ((i : Nat) + (j : Nat)) *
      (A.submatrix j.succAbove i.succAbove).det := by
  rw [Matrix.adjugate_apply, Matrix.det_succ_row _ j]
  rw [Finset.sum_eq_single i]
  · rw [Matrix.updateRow_self, Matrix.submatrix_updateRow_succAbove, Pi.single_apply,
      if_pos rfl, mul_one, add_comm (j : Nat) (i : Nat)]
  · intro b _ hb
    rw [Matrix.updateRow_self, Pi.single_apply, if_neg hb, mul_zero, zero_mul]
  · intro h
    exact absurd (Finset.mem_univ i) h

theorem idx_adjugate_mod (L : List (List Int)) (m : Int) {i j : Nat}
    (hi : i < L.length) (hj : j < L.length) :
    idx (rowAt (adjugate_mod L m) i) j =
      ((altSign (j + i) * det_mod (matrix_minor L j i) m) % m) % m := by
  simp only [adjugate_mod]
  rw [rowAt_map_range _ hi, idx_map_range _ hj]

theorem matZ_adjugate_mod (k m : Nat) (L : List (List Int)) (hL : L.length = k + 2) :
    matZ (k + 2) m (adjugate_mod L (m : Int)) = (matZ (k + 2) m L).adjugate := by
  ext i j
  rw [adjugate_apply_cofactor (matZ (k + 2) m L) i j, add_comm (i : Nat) (j : Nat)]
  show ((idx (rowAt (adjugate_mod L (m : Int)) (i : Nat)) (j : Nat) : Int) : ZMod m) = _
  rw [idx_adjugate_mod L (m : Int) (by omega) (by omega)]
  rw [intCast_emod_natCast, intCast_emod_natCast, altSign_eq_pow]
  push_cast
  have hminor_len : (matrix_minor L (j : Nat) (i : Nat)).length = k + 1 := by
    rw [matrix_minor_length L (j : Nat) (i : Nat) (by omega)]
    omega
  rw [det_mod_cast (k + 1) m (matrix_minor L (j : Nat) (i : Nat)) hminor_len (by omega)]
  rw [matZ_minor (k + 1) m L hL j i]

end Hascill

namespace Hascill

open GameCore

theorem mat_inverse_mod_isSome (m : Nat) (hp : Nat.Prime m) (L : List (List Int))
    (hd : det_mod L (m : Int) % (m : Int) ≠ 0) :
    ∃ Li, mat_inverse_mod L (m : Int) = some Li := by
  have hm1 : 1 < m := hp.one_lt
  have hmz : (m : Int) ≠ 0 := by exact_mod_cast hp.pos.ne'
  have hr0 : 0 ≤ det_mod L (m : Int) % (m : Int) := Int.emod_nonneg _ hmz
  have hrlt : det_mod L (m : Int) % (m : Int) < (m : Int) :=
    Int.emod_lt_of_pos _ (by exact_mod_cast hp.pos)
  have hgcd : Int.gcd (det_mod L (m : Int) % (m : Int)) (m : Int) = 1 := by
    set r := det_mod L (m : Int) % (m : Int) with hrdef
    have h1 : 0 < r.natAbs := by omega
    have h2 : r.natAbs < m := by omega
    have hnd : ¬ (m ∣ r.natAbs) := fun hdvd => by
      have := Nat.le_of_dvd h1 hdvd
      omega
    have hc : Nat.Coprime m r.natAbs := (Nat.Prime.coprime_iff_not_dvd hp).mpr hnd
    unfold Int.gcd
    rw [Int.natAbs_ofNat, Nat.gcd_comm]
    exact hc
  obtain ⟨x, hx⟩ := inv_int_isSome (det_mod L (m : Int)) (m : Int)
    (by exact_mod_cast hm1) hgcd
  unfold mat_inverse_mod
  rw [if_neg hd, hx]
  exact ⟨_, rfl⟩

theorem mat_inverse_mod_spec (k m : Nat) (hm : 1 < m) (L Li : List (List Int))
    (hL : L.length = k + 2)
    (h : mat_inverse_mod L (m : Int) = some Li) :
    Li.length = k + 2 ∧ matZ (k + 2) m Li * matZ (k + 2) m L = 1 := by
  unfold mat_inverse_mod at h
  by_cases hd : det_mod L (m : Int) % (m : Int) = 0
  · rw [if_pos hd] at h
    exact absurd h (by simp)
  · rw [if_neg hd] at h
    cases hinv : inv_int (det_mod L (m : Int)) (m : Int) with
    | none => rw [hinv] at h; exact absurd h (by simp)
    | some inv_d =>
      rw [hinv] at h
      simp only [Option.map_some', Option.some.injEq] at h
      have hLi : Li = (List.range L.length).map fun i =>
          (List.range L.length).map fun j =>
            inv_d * idx (rowAt (adjugate_mod L (m : Int)) i) j % (m : Int) := h.symm
      have hlen : Li.length = k + 2 := by
        rw [hLi, List.length_map, List.length_range, hL]
      refine ⟨hlen, ?_⟩
      have hmatLi : matZ (k + 2) m Li =
          ((inv_d : Int) : ZMod m) • (matZ (k + 2) m L).adjugate := by
        ext i j
        show ((idx (rowAt Li (i : Nat)) (j : Nat) : Int) : ZMod m) = _
        rw [hLi, hL, rowAt_map_range _ (by omega : (i : Nat) < k + 2),
          idx_map_range _ (by omega : (j : Nat) < k + 2)]
        rw [intCast_emod_natCast]
        push_cast
        rw [← matZ_adjugate_mod k m L hL]
        rfl
      rw [hmatLi, Matrix.smul_mul, Matrix.adjugate_mul, smul_smul]
      rw [← det_mod_cast (k + 2) m L hL (by omega)]
      have hinvp := inv_int_some_correct (det_mod L (m : Int)) (m : Int)
        (by exact_mod_cast (by omega : 0 < m)) inv_d hinv
      have hcast : ((inv_d : Int) : ZMod m) * ((det_mod L (m : Int) : Int) : ZMod m) = 1 := by
        have h1 : ((det_mod L (m : Int) * inv_d % (m : Int) : Int) : ZMod m) =
            ((1 % (m : Int) : Int) : ZMod m) := by
          rw [hinvp.1]
        rw [intCast_emod_natCast, intCast_emod_natCast] at h1
        push_cast at h1
        rw [mul_comm] at h1
        exact h1
      rw [hcast, one_smul]

end Hascill

namespace Hascill

open GameCore

theorem sbox_inv_exists (m : Nat) (hm : 257 ≤ m) (h3 : (m - 1) % 3 ≠ 0) :
    ∃ e : Int, inv_int 3 ((m : Int) - 1) = some e := by
  apply inv_int_isSome 3 ((m : Int) - 1) (by omega)
  have h1 : (3 : Int) % ((m : Int) - 1) = 3 := Int.emod_eq_of_lt (by omega) (by omega)
  rw [h1]
  have h2 : ((m : Int) - 1).natAbs = m - 1 := by omega
  have hnd : ¬ (3 ∣ (m - 1)) := fun hdvd => h3 (Nat.dvd_iff_mod_eq_zero.mp hdvd)
  have hc : Nat.Coprime 3 (m - 1) := (Nat.Prime.coprime_iff_not_dvd Nat.prime_three).mpr hnd
  unfold Int.gcd
  rw [h2]
  exact hc

theorem sbox_roundtrip (m : Nat) (hp : Nat.Prime m) (hm : 257 ≤ m)
    (h3 : (m - 1) % 3 ≠ 0) (x : Int) (hx0 : 0 ≤ x) (hxm : x < (m : Int)) :
    sbox_inv (sbox x (m : Int)) (m : Int) = some x := by
  obtain ⟨e, he⟩ := sbox_inv_exists m hm h3
  obtain ⟨hbez, he0, helt⟩ := inv_int_some_correct 3 ((m : Int) - 1) (by omega) e he
  unfold sbox_inv sbox
  rw [he]
  simp only [Option.map_some', Option.some.injEq]
  set E := e.toNat with hE
  have hE1 : 1 ≤ E := by
    rcases Nat.eq_zero_or_pos E with h0 | h1
    · exfalso
      have he0' : e = 0 := by omega
      rw [he0', mul_zero, Int.zero_emod] at hbez
      have : (1 : Int) % ((m : Int) - 1) = 1 := Int.emod_eq_of_lt (by omega) (by omega)
      omega
    · exact h1
  have h3E : (3 * E) % (m - 1) = 1 := by
    have hcast1 : (3 : Int) * e = ((3 * E : Nat) : Int) := by
      push_cast [Int.toNat_of_nonneg he0]
      ring
    have hcast2 : (m : Int) - 1 = ((m - 1 : Nat) : Int) := by omega
    have hone : (1 : Int) % ((m : Int) - 1) = 1 := Int.emod_eq_of_lt (by omega) (by omega)
    rw [hone, hcast1, hcast2, ← Int.ofNat_emod] at hbez
    exact_mod_cast hbez
  haveI : Fact (Nat.Prime m) := ⟨hp⟩
  have hmz : (m : Int) ≠ 0 := by omega
  apply intCast_inj_of_range (Int.emod_nonneg _ hmz)
    (Int.emod_lt_of_pos _ (by omega)) hx0 hxm
  rw [intCast_emod_natCast]
  push_cast
  rw [← pow_mul]
  set y := ((x : Int) : ZMod m) with hy
  by_cases hy0 : y = 0
  · rw [hy0, zero_pow (by omega : 3 * E ≠ 0)]
  · have hcard : y ^ (m - 1) = 1 := ZMod.pow_card_sub_one_eq_one hy0
    have hsplit : 3 * E = (m - 1) * ((3 * E) / (m - 1)) + 1 := by
      have := Nat.div_add_mod (3 * E) (m - 1)
      omega
    rw [hsplit, pow_add, pow_mul, hcard, one_pow, one_mul, pow_one]

end Hascill

namespace Hascill

open GameCore

theorem pkcs7_unpad_some_last (l : List Int) (pad : Int) (h : l.getLast? = some pad) :
    pkcs7_unpad l = if pad ≤ 0 ∨ (l.length : Int) < pad then none
      else if (l.drop (l.length - pad.toNat)).any (· ≠ pad) then none
      else some (l.take (l.length - pad.toNat)) := by
  unfold pkcs7_unpad
  rw [h]

theorem pkcs7_unpad_append (data : List Int) (p : Nat) (hp : 1 ≤ p) :
    pkcs7_unpad (data ++ List.replicate p ((p : Nat) : Int)) = some data := by
  set pi : Int := ((p : Nat) : Int) with hpi
  have hrep : List.replicate p pi = List.replicate (p - 1) pi ++ [pi] := by
    conv_lhs => rw [show p = (p - 1) + 1 by omega]
    rw [List.replicate_succ']
  have hlast : (data ++ List.replicate p pi).getLast? = some pi := by
    rw [hrep, ← List.append_assoc, List.getLast?_concat]
  rw [pkcs7_unpad_some_last _ pi hlast]
  have hlen : (data ++ List.replicate p pi).length = data.length + p := by
    rw [List.length_append, List.length_replicate]
  rw [if_neg (by rw [hlen]; push_cast; omega)]
  have htonat : pi.toNat = p := by omega
  have hsub : (data ++ List.replicate p pi).length - pi.toNat = data.length := by
    rw [hlen, htonat]
    omega
  rw [hsub]
  have hdrop : (data ++ List.replicate p pi).drop data.length = List.replicate p pi := by
    conv_lhs => rw [show data.length = data.length from rfl]
    exact List.drop_left data (List.replicate p pi)
  rw [hdrop]
  have hany : (List.replicate p pi).any (· ≠ pi) = false := by
    simp [List.any_eq_true, List.mem_replicate]
  rw [hany]
  have htake : (data ++ List.replicate p pi).take data.length = data :=
    List.take_left data (List.replicate p pi)
  simp [htake]

theorem pkcs7_pad_eq (data : List Int) (bs : Nat) (hbs : 1 ≤ bs) :
    pkcs7_pad data bs = data ++
      List.replicate (bs - data.length % bs) ((bs - data.length % bs : Nat) : Int) := by
  have hmod : data.length % bs < bs := Nat.mod_lt _ (by omega)
  simp only [pkcs7_pad]
  rw [if_neg (by omega : ¬ (bs - data.length % bs = 0))]

theorem pkcs7_pad_spec (data : List Int) (bs : Nat) (hbs : 1 ≤ bs) :
    ∃ p : Nat, 1 ≤ p ∧ p ≤ bs ∧
      pkcs7_pad data bs = data ++ List.replicate p ((p : Nat) : Int) ∧
      (pkcs7_pad data bs).length = data.length + p ∧
      bs ∣ (pkcs7_pad data bs).length := by
  have hmod : data.length % bs < bs := Nat.mod_lt _ (by omega)
  refine ⟨bs - data.length % bs, by omega, by omega, pkcs7_pad_eq data bs hbs, ?_, ?_⟩
  · rw [pkcs7_pad_eq data bs hbs, List.length_append, List.length_replicate]
  · rw [pkcs7_pad_eq data bs hbs, List.length_append, List.length_replicate]
    have hdm := Nat.div_add_mod data.length bs
    have hmod : data.length % bs < bs := Nat.mod_lt _ (by omega)
    refine ⟨data.length / bs + 1, ?_⟩
    rw [Nat.mul_succ]
    omega

theorem blocks_ofFuel_spec (n : Nat) (hn : 1 ≤ n) :
    ∀ (fuel : Nat) (v : List Int), v.length ≤ fuel → n ∣ v.length →
      (∀ b ∈ blocks_ofFuel fuel v n, b.length = n ∧ ∀ x ∈ b, x ∈ v) ∧
      (blocks_ofFuel fuel v n).flatten = v := by
  intro fuel
  induction fuel with
  | zero =>
    intro v hv _
    have hnil : v = [] := by
      cases v with
      | nil => rfl
      | cons a l => simp at hv
    subst hnil
    simp [blocks_ofFuel]
  | succ fuel ih =>
    intro v hv hd
    by_cases hnil : v = []
    · subst hnil
      simp [blocks_ofFuel]
    · simp only [blocks_ofFuel, if_neg hnil]
      have hlen : 0 < v.length := List.length_pos.mpr hnil
      have hnle : n ≤ v.length := Nat.le_of_dvd hlen hd
      have htake : (v.take n).length = n := by rw [List.length_take]; omega
      have hd' : n ∣ (v.drop n).length := by
        rw [List.length_drop]
        exact Nat.dvd_sub' hd dvd_rfl
      obtain ⟨ihb, ihf⟩ := ih (v.drop n) (by rw [List.length_drop]; omega) hd'
      constructor
      · intro b hb
        rcases List.mem_cons.mp hb with rfl | hb'
        · exact ⟨htake, fun x hx => List.take_subset n v hx⟩
        · obtain ⟨hbl, hbm⟩ := ihb b hb'
          exact ⟨hbl, fun x hx => List.drop_subset n v (hbm x hx)⟩
      · rw [List.flatten_cons, ihf, List.take_append_drop]

theorem blocks_of_spec (v : List Int) (n : Nat) (hn : 1 ≤ n) (hd : n ∣ v.length) :
    (∀ b ∈ blocks_of v n, b.length = n ∧ ∀ x ∈ b, x ∈ v) ∧
    (blocks_of v n).flatten = v :=
  blocks_ofFuel_spec n hn v.length v le_rfl hd

end Hascill

namespace Hascill

open GameCore

theorem idx_eq_getElem (l : List Int) (j : Nat) (h : j < l.length) :
    idx l j = l[j] := by
  unfold idx
  rw [List.getD_eq_getElem?_getD, List.getElem?_eq_getElem h]
  rfl

theorem mapM_map_roundtrip (l : List Int) (f : Int → Int) (g : Int → Option Int)
    (h : ∀ x ∈ l, g (f x) = some x) : (l.map f).mapM g = some l := by
  induction l with
  | nil => rfl
  | cons a l ih =>
    rw [List.map_cons, List.mapM_cons, h a (List.mem_cons_self a l),
      ih (fun x hx => h x (List.mem_cons_of_mem a hx))]
    rfl

theorem decBlock_encBlock (k m : Nat) (hp : Nat.Prime m) (hm : 257 ≤ m)
    (h3 : (m - 1) % 3 ≠ 0)
    (L Li : List (List Int)) (hL : L.length = k + 2) (hLi : Li.length = k + 2)
    (hInv : matZ (k + 2) m Li * matZ (k + 2) m L = 1)
    (ks : Int) (b : List Int) (i : Nat) (prev blk : List Int)
    (hblk_len : blk.length = k + 2)
    (hblk_range : ∀ x ∈ blk, 0 ≤ x ∧ x < (m : Int)) :
    decBlockTry (m : Int) ks Li b (k + 2) i prev
      (encBlock (m : Int) ks L b (k + 2) i prev blk) = some blk := by
  have hm0 : (0 : Int) < (m : Int) := by omega
  have hmz : (m : Int) ≠ 0 := by omega
  simp only [decBlockTry, encBlock]
  generalize htw : tweak i (k + 2) (m : Int) ks = t
  generalize hu : ((List.range (k + 2)).map fun j =>
    (idx blk j + idx prev j + idx t j) % (m : Int)) = u
  generalize hup : u.map (fun x => sbox x (m : Int)) = up
  generalize hw : mat_vec_mul L up (m : Int) = w
  generalize hc : ((List.range (k + 2)).map fun j =>
    (idx w j + idx b j + idx t j) % (m : Int)) = c
  -- entry bounds
  have hu_range : ∀ x ∈ u, 0 ≤ x ∧ x < (m : Int) := by
    intro x hx
    rw [← hu] at hx
    obtain ⟨j, _, rfl⟩ := List.mem_map.mp hx
    exact ⟨Int.emod_nonneg _ hmz, Int.emod_lt_of_pos _ hm0⟩
  have hu_len : u.length = k + 2 := by
    rw [← hu, List.length_map, List.length_range]
  have hup_len : up.length = k + 2 := by
    rw [← hup, List.length_map, hu_len]
  have hup_range : ∀ x ∈ up, 0 ≤ x ∧ x < (m : Int) := by
    intro x hx
    rw [← hup] at hx
    obtain ⟨y, _, rfl⟩ := List.mem_map.mp hx
    exact ⟨Int.emod_nonneg _ hmz, Int.emod_lt_of_pos _ hm0⟩
  have hw_len : w.length = k + 2 := by
    rw [← hw, mat_vec_mul_length, hL]
  have hw_range : ∀ j, j < k + 2 → 0 ≤ idx w j ∧ idx w j < (m : Int) := by
    intro j hj
    rw [← hw]
    exact mat_vec_mul_range hm0 (by omega)
  have hc_entry : ∀ j, j < k + 2 →
      idx c j = (idx w j + idx b j + idx t j) % (m : Int) := by
    intro j hj
    rw [← hc]
    exact idx_map_range _ hj
  -- step 1: the reconstructed w equals the original w
  have hw' : ((List.range (k + 2)).map fun j =>
      (idx c j - idx b j - idx t j) % (m : Int)) = w := by
    have hmap : ((List.range (k + 2)).map fun j =>
        (idx c j - idx b j - idx t j) % (m : Int)) =
        (List.range (k + 2)).map fun j => idx w j :=
      map_range_congr (fun j hj => by
        apply intCast_inj_of_range (Int.emod_nonneg _ hmz) (Int.emod_lt_of_pos _ hm0)
          (hw_range j hj).1 (hw_range j hj).2
        rw [intCast_emod_natCast, hc_entry j hj]
        push_cast [intCast_emod_natCast]
        ring)
    rw [hmap]
    apply List.ext_getElem (by rw [List.length_map, List.length_range, hw_len])
    intro j h1 h2
    have hj : j < k + 2 := by
      rw [List.length_map, List.length_range] at h1
      exact h1
    rw [← idx_eq_getElem _ _ h2]
    rw [show ((List.range (k + 2)).map fun j => idx w j)[j] =
      idx ((List.range (k + 2)).map fun j => idx w j) j from
        (idx_eq_getElem _ _ h1).symm]
    rw [idx_map_range _ hj]
  rw [hw']
  -- step 2: multiplying by the inverse matrix recovers up
  have hupZ : vecZ (k + 2) m (mat_vec_mul Li w (m : Int)) = vecZ (k + 2) m up := by
    rw [vecZ_mat_vec_mul (k + 2) m Li w hLi, ← hw,
      vecZ_mat_vec_mul (k + 2) m L up hL, Matrix.mulVec_mulVec, hInv,
      Matrix.one_mulVec]
  have hup' : mat_vec_mul Li w (m : Int) = up := by
    apply List.ext_getElem (by rw [mat_vec_mul_length, hLi, hup_len])
    intro j h1 h2
    have hj : j < k + 2 := by
      rw [mat_vec_mul_length, hLi] at h1
      exact h1
    rw [← idx_eq_getElem _ _ h1, ← idx_eq_getElem _ _ h2]
    have hb1 := mat_vec_mul_range (M := Li) (v := w) hm0 (by omega : j < Li.length)
    have hb2 := hup_range up[j] (List.getElem_mem h2)
    rw [← idx_eq_getElem _ _ h2] at hb2
    apply intCast_inj_of_range hb1.1 hb1.2 hb2.1 hb2.2
    have := congrFun hupZ ⟨j, hj⟩
    exact this
  rw [hup']
  -- step 3: sbox_inv inverts sbox on every entry
  have hmapM : up.mapM (fun y => sbox_inv y (m : Int)) = some u := by
    rw [← hup]
    exact mapM_map_roundtrip u _ _ (fun x hx =>
      sbox_roundtrip m hp hm h3 x (hu_range x hx).1 (hu_range x hx).2)
  rw [hmapM]
  -- step 4: subtracting prev and t recovers the block
  have hfinal : ((List.range (k + 2)).map fun j =>
      (idx u j - idx prev j - idx t j) % (m : Int)) = blk := by
    apply List.ext_getElem (by rw [List.length_map, List.length_range, hblk_len])
    intro j h1 h2
    have hj : j < k + 2 := by
      rw [List.length_map, List.length_range] at h1
      exact h1
    rw [← idx_eq_getElem _ _ h1, ← idx_eq_getElem _ _ h2, idx_map_range _ hj]
    have hbb := hblk_range blk[j] (List.getElem_mem h2)
    rw [← idx_eq_getElem _ _ h2] at hbb
    apply intCast_inj_of_range (Int.emod_nonneg _ hmz) (Int.emod_lt_of_pos _ hm0)
      hbb.1 hbb.2
    have hu_entry : idx u j = (idx blk j + idx prev j + idx t j) % (m : Int) := by
      rw [← hu]
      exact idx_map_range _ hj
    rw [intCast_emod_natCast, hu_entry]
    push_cast [intCast_emod_natCast]
    ring
  simp [hfinal]

end Hascill

namespace Hascill

open GameCore

theorem decrypt_chain_encrypt_chain (k m : Nat) (hp : Nat.Prime m) (hm : 257 ≤ m)
    (h3 : (m - 1) % 3 ≠ 0)
    (L Li : List (List Int)) (hL : L.length = k + 2) (hLi : Li.length = k + 2)
    (hInv : matZ (k + 2) m Li * matZ (k + 2) m L = 1) (ks : Int) (b : List Int) :
    ∀ (vbs : List (List Int)) (i : Nat) (prev : List Int),
      (∀ blk ∈ vbs, blk.length = k + 2 ∧ ∀ x ∈ blk, 0 ≤ x ∧ x < (m : Int)) →
      decrypt_chain (m : Int) ks Li b (k + 2) i prev
        (encrypt_chain (m : Int) ks L b (k + 2) i prev vbs) = some vbs := by
  intro vbs
  induction vbs with
  | nil => intro i prev _; rfl
  | cons blk rest ih =>
    intro i prev hall
    have hdec := decBlock_encBlock k m hp hm h3 L Li hL hLi hInv ks b i prev blk
      (hall blk (List.mem_cons_self blk rest)).1 (hall blk (List.mem_cons_self blk rest)).2
    have hih := ih (i + 1) (encBlock (m : Int) ks L b (k + 2) i prev blk)
      (fun bb hbb => hall bb (List.mem_cons_of_mem blk hbb))
    simp only [encrypt_chain, decrypt_chain]
    rw [hdec]
    simp only [Option.bind_eq_bind, Option.some_bind]
    rw [hih]
    rfl

theorem derive_prime_sound (pw : List Nat) (fuel mN : Nat)
    (h : derive_prime_from_password pw fuel = some mN) :
    Nat.Prime mN ∧ 257 ≤ mN ∧ (mN - 1) % 3 ≠ 0 := by
  unfold derive_prime_from_password next_prime_condition at h
  obtain ⟨hq, _, _, _⟩ := next_prime_search_sound deriveCond fuel _ mN h
  rw [Bool.and_eq_true] at hq
  have hprime := (is_prime_iff mN).mp hq.1
  have hc := hq.2
  unfold deriveCond at hc
  rw [Bool.and_eq_true] at hc
  refine ⟨hprime, by simpa using hc.2, ?_⟩
  simpa using hc.1

theorem attemptParams_lengths (pw : List Nat) (n : Nat) (m : Int) (att : Nat) :
    (attemptParams pw n m att).1.length = n ∧
    (attemptParams pw n m att).2.1.length = n ∧
    (attemptParams pw n m att).2.2.length = n := by
  simp [attemptParams]

theorem derive_paramsFrom_sound (pw : List Nat) (n : Nat) (m : Int) :
    ∀ (tries att : Nat) (p : List (List Int) × List Int × List Int),
      derive_paramsFrom pw n m att tries = some p →
      det_mod p.1 m % m ≠ 0 ∧ ∃ a, p = attemptParams pw n m a := by
  intro tries
  induction tries with
  | zero => intro att p h; exact absurd h (by simp [derive_paramsFrom])
  | succ tries ih =>
    intro att p h
    simp only [derive_paramsFrom] at h
    by_cases hdet : det_mod (attemptParams pw n m att).1 m % m ≠ 0
    · rw [if_pos hdet] at h
      have hp : attemptParams pw n m att = p := by
        simpa using h
      subst hp
      exact ⟨hdet, att, rfl⟩
    · rw [if_neg hdet] at h
      exact ih (att + 1) p h

theorem derive_params_sound (pw : List Nat) (n fuel : Nat) (ps : Params)
    (h : derive_params_from_password pw n fuel = some ps) :
    ∃ mN : Nat, ps.m = (mN : Int) ∧ Nat.Prime mN ∧ 257 ≤ mN ∧ (mN - 1) % 3 ≠ 0 ∧
      ps.M.length = n ∧ ps.b.length = n ∧ ps.IV.length = n ∧
      det_mod ps.M ps.m % ps.m ≠ 0 := by
  unfold derive_params_from_password at h
  cases hm : derive_prime_from_password pw fuel with
  | none => rw [hm] at h; exact absurd h (by simp)
  | some mN =>
    rw [hm] at h
    simp only [Option.bind_eq_bind, Option.some_bind] at h
    cases hp : derive_params pw n (mN : Int) with
    | none => rw [hp] at h; exact absurd h (by simp)
    | some p =>
      rw [hp] at h
      simp only [Option.some_bind, Option.pure_def, Option.some.injEq] at h
      subst h
      obtain ⟨hprime, h257, h3⟩ := derive_prime_sound pw fuel mN hm
      obtain ⟨hdet, a, hpa⟩ := derive_paramsFrom_sound pw n (mN : Int) 16 0 p hp
      obtain ⟨hM, hb, hIV⟩ := attemptParams_lengths pw n (mN : Int) a
      refine ⟨mN, rfl, hprime, h257, h3, ?_, ?_, ?_, ?_⟩
      · show p.1.length = n
        rw [hpa]
        exact hM
      · show p.2.1.length = n
        rw [hpa]
        exact hb
      · show p.2.2.length = n
        rw [hpa]
        exact hIV
      · show det_mod p.1 ((mN : Nat) : Int) % ((mN : Nat) : Int) ≠ 0
        exact hdet

end Hascill

namespace Hascill

open GameCore

/-- C5 (amended): for block sizes `2 ≤ n ≤ 256`, decrypting an encryption
returns the original plaintext bytes: whenever `encrypt_verbose` succeeds on an
ASCII plaintext (so parameter derivation succeeded), `decrypt_verbose` of the
ciphertext returns the plaintext, both directions chaining with `prev = IV`
for block `0` and `prev = c_(i-1)` for block `i`.  (At `n = 1` the roundtrip
fails, because `adjugate_mod` of a `1 x 1` matrix is `[[0]]`.) -/
theorem claim5_roundtrip (password plaintext : List Nat) (n fuel : Nat)
    (hpt : ∀ bch ∈ plaintext, bch < 128)
    (hn2 : 2 ≤ n) (hn : n ≤ 256)
    (c : List (List Int)) (henc : encrypt_verbose password plaintext n fuel = some c) :
    decrypt_verbose password c n fuel = some (plaintext.map Int.ofNat) := by
  obtain ⟨k, rfl⟩ : ∃ k, n = k + 2 := ⟨n - 2, by omega⟩
  unfold encrypt_verbose at henc
  rw [if_neg (by omega : ¬ (k + 2) = 0)] at henc
  cases hps : derive_params_from_password password (k + 2) fuel with
  | none => rw [hps] at henc; exact absurd henc (by simp)
  | some ps =>
    rw [hps] at henc
    simp only [Option.bind_eq_bind, Option.some_bind, Option.pure_def,
      Option.some.injEq] at henc
    obtain ⟨mN, hmeq, hprime, h257, h3, hMlen, hblen, hIVlen, hdet⟩ :=
      derive_params_sound password (k + 2) fuel ps hps
    rw [hmeq] at hdet
    obtain ⟨Li, hLi⟩ := mat_inverse_mod_isSome mN hprime ps.M hdet
    obtain ⟨hLilen, hInv⟩ := mat_inverse_mod_spec k mN hprime.one_lt ps.M Li hMlen hLi
    set data := plaintext.map Int.ofNat with hdata
    obtain ⟨p, hp1, hpn, hpadd, hplen, hpdvd⟩ := pkcs7_pad_spec data (k + 2) (by omega)
    obtain ⟨hblocks, hflat⟩ := blocks_of_spec (pkcs7_pad data (k + 2)) (k + 2) (by omega) hpdvd
    have hpad_range : ∀ x ∈ pkcs7_pad data (k + 2), 0 ≤ x ∧ x < (mN : Int) := by
      intro x hx
      rw [hpadd] at hx
      rcases List.mem_append.mp hx with hx | hx
      · rw [hdata] at hx
        obtain ⟨bch, hbch, rfl⟩ := List.mem_map.mp hx
        have := hpt bch hbch
        constructor
        · exact Int.ofNat_nonneg bch
        · show ((bch : Nat) : Int) < ((mN : Nat) : Int)
          omega
      · have hxp := List.eq_of_mem_replicate hx
        subst hxp
        constructor
        · omega
        · omega
    have hchain := decrypt_chain_encrypt_chain k mN hprime h257 h3 ps.M Li hMlen hLilen
      hInv ps.key_sum ps.b (blocks_of (pkcs7_pad data (k + 2)) (k + 2)) 0 ps.IV
      (fun blk hblk => ⟨(hblocks blk hblk).1,
        fun x hx => hpad_range x ((hblocks blk hblk).2 x hx)⟩)
    unfold decrypt_verbose
    rw [hps]
    simp only [Option.bind_eq_bind, Option.some_bind]
    rw [hmeq, hLi]
    simp only [Option.some_bind]
    rw [← henc, hmeq, hchain]
    simp only [Option.some_bind]
    rw [hflat, hpadd]
    exact pkcs7_unpad_append data p hp1

end Hascill

namespace Hascill

open GameCore

set_option maxRecDepth 10000 in
/-- C5 counterexample: at block size `n = 1` (not excluded by the claim as
stated) encryption succeeds but decryption does not return the plaintext:
`adjugate_mod` of the `1 x 1` key matrix is `[[0]]` because the empty minor's
`det_mod` is `0`, so `mat_inverse_mod` returns the zero matrix and
`decrypt_verbose` fails. -/
theorem claim5_counterexample :
    encrypt_verbose [80, 65, 90, 57] [72, 105, 108, 115] 1 600 =
      some [[220], [161], [429], [398], [519]] ∧
    decrypt_verbose [80, 65, 90, 57] [[220], [161], [429], [398], [519]] 1 600 = none := by
  constructor
  · rfl
  · rfl

set_option maxRecDepth 10000 in
/-- C5 witness: the amended theorem applied to password `"PAZ9"`, plaintext
`"Hils"`, block size `2`. -/
theorem claim5_witness :
    (∀ bch ∈ ([72, 105, 108, 115] : List Nat), bch < 128) ∧ 2 ≤ 2 ∧ 2 ≤ 256 ∧
    encrypt_verbose [80, 65, 90, 57] [72, 105, 108, 115] 2 600 =
      some [[332, 191], [335, 59], [541, 196]] ∧
    decrypt_verbose [80, 65, 90, 57] [[332, 191], [335, 59], [541, 196]] 2 600 =
      some (([72, 105, 108, 115] : List Nat).map Int.ofNat) :=
  ⟨by decide, by decide, by decide, by rfl,
    claim5_roundtrip [80, 65, 90, 57] [72, 105, 108, 115] 2 600 (by decide)
      (by decide) (by decide) [[332, 191], [335, 59], [541, 196]] (by rfl)⟩

end Hascill
